import Mathlib

/-!
# VC-Analyzer: commit parsing and bottleneck detection

A shallow embedding of `cmd/subcommands/detect_bottlenecks.go` (getCommitHistory)
and `pkg/analyzer/bottlenecks.go` (DetectBottlenecks, findMergeConflicts,
isMergeConflict, getChangedFiles), followed by theorems about them.

Modelling conventions
* A Go string is a list of characters (the text is taken to be valid UTF-8; every
  separator the program uses is a single ASCII character).
* A Go `map[string]V` is an association list with pairwise distinct keys; reading a
  missing key yields the zero value, writing replaces or appends.
* A Go map value is a reference.  The parser copies a `CommitInfo` struct into the
  result slice and keeps writing through the pointer it kept, so the parser is
  modelled over a small heap of map objects and struct cells that hold addresses.
* A run-time panic (index or slice bound out of range) and a failed git command are explicit
  outcomes.
* `exec.Command(...)` is modelled by a history source: a function from the argument
  vector to the captured output, or nothing when the command fails.
* Counters are Go `int`s.  A counter never exceeds the number of commits in the
  slice, which is far below `2^63`, so they are modelled as natural numbers.
-/

namespace VCAnalyzer

/-! ## Go strings and the `strings` functions used -/

/-- Go string: a sequence of characters. -/
abbrev GoString := List Char

/-- Result of a piece of Go code that may panic or report a failed command. -/
inductive Outcome (α : Type) where
  | ok : α → Outcome α
  | commandFailed : Outcome α
  | panic : Outcome α
  deriving DecidableEq, Repr

/-- Sequencing of outcomes: a panic or an error return ends the computation. -/
def Outcome.bind {α β : Type} (x : Outcome α) (f : α → Outcome β) : Outcome β :=
  match x with
  | .ok a => f a
  | .commandFailed => .commandFailed
  | .panic => .panic

/-- Index expression `a[i]` on a slice: panics when `i` is out of range. -/
def index {α : Type} (a : List α) (i : Nat) : Outcome α :=
  match a.get? i with
  | some x => .ok x
  | none => .panic

/-- Cut `s` at the first occurrence of the one-character separator: the text before
it (`s[:m]`) and the text after it (`s[m+len(sep):]`), where `m = Index(s, sep)`;
nothing when the separator does not occur (`m < 0`). -/
def cutAt (sep : Char) : GoString → Option (GoString × GoString)
  | [] => none
  | c :: cs =>
    if c = sep then some ([], cs)
    else match cutAt sep cs with
      | none => none
      | some (before, after) => some (c :: before, after)

/-- The loop of `strings.genSplit` with `k = n - 1 - i` iterations left: cut at the
separator while iterations remain and the separator occurs; the rest is the last
element. -/
def genSplit (sep : Char) : Nat → GoString → List GoString
  | 0, s => [s]
  | k + 1, s =>
    match cutAt sep s with
    | none => [s]
    | some (before, after) => before :: genSplit sep k after

/-- Go `strings.Contains(s, sep)` for a one-character separator. -/
def Contains (s : GoString) (sep : Char) : Bool :=
  s.contains sep

/-- Go `strings.Count(s, sep)` for a one-character separator. -/
def Count (s : GoString) (sep : Char) : Nat :=
  s.count sep

/-- Go `strings.SplitN(s, sep, n)` for `n ≥ 0` and a one-character separator: at
most `n` substrings, the last one being the unsplit remainder; `n = 0` gives nil.
(genSplit also lowers `n` to `len(s)+1`, which never changes the result because a
string has at most `len(s)` separators.) -/
def SplitN (s : GoString) (sep : Char) (n : Nat) : List GoString :=
  if n = 0 then [] else genSplit sep (n - 1) s

/-- Go `strings.Split(s, sep)`, that is `genSplit` with `n = Count(s, sep) + 1`. -/
def Split (s : GoString) (sep : Char) : List GoString :=
  genSplit sep (Count s sep) s

/-- Go `unicode.IsSpace`: the Unicode White_Space code points. -/
def isSpace (c : Char) : Bool :=
  let n := c.toNat
  (0x09 ≤ n && n ≤ 0x0D) || n = 0x20 || n = 0x85 || n = 0xA0 || n = 0x1680 ||
  (0x2000 ≤ n && n ≤ 0x200A) || n = 0x2028 || n = 0x2029 || n = 0x202F ||
  n = 0x205F || n = 0x3000

/-- Scan of `strings.Fields`: `cur` is the field being read (empty between fields). -/
def fieldsFrom : GoString → GoString → List GoString
  | [], cur => if cur = [] then [] else [cur]
  | c :: cs, cur =>
    if isSpace c then
      (if cur = [] then fieldsFrom cs [] else cur :: fieldsFrom cs [])
    else fieldsFrom cs (cur ++ [c])

/-- Go `strings.Fields(s)`: the maximal runs of non-space characters of `s`. -/
def Fields (s : GoString) : List GoString :=
  fieldsFrom s []

/-! ## Go maps -/

/-- Go `map[string]V` as an association list with distinct keys. -/
abbrev GoMap (V : Type) := List (GoString × V)

/-- Two-value map read `v, ok := m[k]`. -/
def mapLookup {V : Type} : GoMap V → GoString → Option V
  | [], _ => none
  | (k', v) :: m, k => if k' = k then some v else mapLookup m k

/-- Map write `m[k] = v`. -/
def mapSet {V : Type} : GoMap V → GoString → V → GoMap V
  | [], k, v => [(k, v)]
  | (k', v') :: m, k, v => if k' = k then (k, v) :: m else (k', v') :: mapSet m k v

/-- Counter increment `m[k]++`: a missing key reads as zero. -/
def mapIncr (m : GoMap Nat) (k : GoString) : GoMap Nat :=
  mapSet m k ((mapLookup m k).getD 0 + 1)

/-- Keys of a map. -/
def mapKeys {V : Type} (m : GoMap V) : List GoString :=
  m.map Prod.fst

/-! ## Data model (pkg/analyzer/bottlenecks.go) -/

/-- CommitInfo: the details of a commit; `Files` maps each changed path to a count. -/
structure CommitInfo where
  Hash : GoString
  Author : GoString
  Date : GoString
  Message : GoString
  Files : GoMap Int
  deriving DecidableEq, Repr

/-- MergeCommit: hash, message and affected files of a merge commit. -/
structure MergeCommit where
  CommitHash : GoString
  Message : GoString
  Files : List GoString
  deriving DecidableEq, Repr

/-- History source: what running a command with the given argument vector yields,
its captured output, or nothing when the command fails. -/
abbrev HistorySource := List GoString → Option GoString

/-! ## getCommitHistory (cmd/subcommands/detect_bottlenecks.go) -/

/-- CommitInfo struct as it lies in memory: `Files` is the address of a map object. -/
structure CommitCell where
  Hash : GoString
  Author : GoString
  Date : GoString
  Message : GoString
  Files : Nat
  deriving DecidableEq, Repr

/-- State of the parsing loop: the map objects allocated so far (by address), the
`commits` slice and the `currentCommit` pointer (its pointee; `none` is nil). -/
structure ParseState where
  maps : List (GoMap Int)
  commits : List CommitCell
  currentCommit : Option CommitCell
  deriving DecidableEq, Repr

/-- State before the loop: `commits` and `currentCommit` are nil. -/
def ParseState.init : ParseState :=
  ⟨[], [], none⟩

/-- Write `m[k] = v` through the map reference `addr`. -/
def heapSet (maps : List (GoMap Int)) (addr : Nat) (k : GoString) (v : Int) :
    List (GoMap Int) :=
  maps.modify (fun m => mapSet m k v) addr

/-- One iteration of the loop `for _, line := range lines` of getCommitHistory. -/
def parseLine (st : ParseState) (line : GoString) : Outcome ParseState :=
  if Contains line ',' then
    let fields := SplitN line ',' 4
    (index fields 0).bind fun hash =>
    (index fields 1).bind fun author =>
    (index fields 2).bind fun date =>
    (index fields 3).bind fun message =>
    let cell : CommitCell := ⟨hash, author, date, message, st.maps.length⟩
    .ok ⟨st.maps ++ [[]], st.commits ++ [cell], some cell⟩
  else
    match st.currentCommit with
    | some cur =>
      let fileFields := Fields line
      if fileFields.length = 3 then
        (index fileFields 2).bind fun file =>
        .ok ⟨heapSet st.maps cur.Files file 1, st.commits, st.currentCommit⟩
      else .ok st
    | none => .ok st

/-- The whole loop over the lines. -/
def parseLines (st : ParseState) : List GoString → Outcome ParseState
  | [] => .ok st
  | line :: rest => (parseLine st line).bind fun st' => parseLines st' rest

/-- Read a struct cell of the returned slice: follow its map reference. -/
def readCell (maps : List (GoMap Int)) (c : CommitCell) : CommitInfo :=
  ⟨c.Hash, c.Author, c.Date, c.Message, (maps.get? c.Files).getD []⟩

/-- The returned `commits` slice as the caller sees it. -/
def ParseState.result (st : ParseState) : List CommitInfo :=
  st.commits.map (readCell st.maps)

/-- The parsing part of getCommitHistory: from the command output to the returned
slice. -/
def parseCommitLog (output : GoString) : Outcome (List CommitInfo) :=
  (parseLines ParseState.init (Split output '\n')).bind fun st => .ok st.result

/-- Argument vector of the log query of getCommitHistory. -/
def logCommand (repoPath : GoString) : List GoString :=
  ["git".toList, "-C".toList, repoPath, "log".toList,
   "--pretty=format:%H,%an,%ad,%s".toList, "--numstat".toList]

/-- getCommitHistory: run the log query, fail when it fails, parse its output. -/
def getCommitHistory (src : HistorySource) (repoPath : GoString) :
    Outcome (List CommitInfo) :=
  match src (logCommand repoPath) with
  | none => .commandFailed
  | some output => parseCommitLog output

/-! ### The loop on values

The same loop described on the slice the caller finally sees, without the heap: a
header line appends a record, a stat line adds a key to the last record. -/

/-- Record built from a header line (panics as the field accesses do). -/
def headerRecord (line : GoString) : Outcome CommitInfo :=
  let fields := SplitN line ',' 4
  (index fields 0).bind fun hash =>
  (index fields 1).bind fun author =>
  (index fields 2).bind fun date =>
  (index fields 3).bind fun message =>
  .ok ⟨hash, author, date, message, []⟩

/-- Path named by a stat line: the third of exactly three whitespace-separated
tokens. -/
def statFile (line : GoString) : Option GoString :=
  if (Fields line).length = 3 then (Fields line).get? 2 else none

/-- Mark `file` as changed in a record. -/
def addFile (file : GoString) (c : CommitInfo) : CommitInfo :=
  ⟨c.Hash, c.Author, c.Date, c.Message, mapSet c.Files file 1⟩

/-- Apply `f` to the last element of a list (nothing to do on the empty list). -/
def onLast {α : Type} (f : α → α) : List α → List α
  | [] => []
  | [a] => [f a]
  | a :: b :: l => a :: onLast f (b :: l)

/-- One loop iteration on values. -/
def lineValue (cs : List CommitInfo) (line : GoString) : Outcome (List CommitInfo) :=
  if Contains line ',' then
    (headerRecord line).bind fun r => .ok (cs ++ [r])
  else
    match statFile line with
    | some file => .ok (onLast (addFile file) cs)
    | none => .ok cs

/-- The loop on values. -/
def linesValue (cs : List CommitInfo) : List GoString → Outcome (List CommitInfo)
  | [] => .ok cs
  | line :: rest => (lineValue cs line).bind fun cs' => linesValue cs' rest

/-- Loop invariant of the heap model: one map object per record, record `i` holds
address `i`, and `currentCommit` is a copy of the last record (nil when there is
none). -/
def ParseState.Inv (st : ParseState) : Prop :=
  st.maps.length = st.commits.length ∧
  (∀ i c, st.commits.get? i = some c → c.Files = i) ∧
  st.currentCommit = st.commits.getLast?

/-! ## isMergeConflict (pkg/analyzer/bottlenecks.go) -/

/-- Go `unicode.SimpleFold` on the fold orbits of the ASCII runes (the only runes a
pattern of this program contains): `A → a → A`, with the two longer orbits
`K → k → U+212A → K` and `S → s → U+017F → S`; other runes are left alone here. -/
def SimpleFold (r : Char) : Char :=
  let n := r.toNat
  if n = 0x4B then 'k'
  else if n = 0x6B then Char.ofNat 0x212A
  else if n = 0x212A then 'K'
  else if n = 0x53 then 's'
  else if n = 0x73 then Char.ofNat 0x17F
  else if n = 0x17F then 'S'
  else if 0x41 ≤ n ∧ n ≤ 0x5A then Char.ofNat (n + 32)
  else if 0x61 ≤ n ∧ n ≤ 0x7A then Char.ofNat (n - 32)
  else r

/-- Does input rune `r` match the literal rune `r0` under `(?i)`: `r` is `r0` or a
member of its fold orbit (an orbit of an ASCII rune has at most three members). -/
def matchRune (r0 r : Char) : Bool :=
  r = r0 || r = SimpleFold r0 || r = SimpleFold (SimpleFold r0)

/-- Does the case-folded literal `pat` match at the start of `s`? -/
def matchLiteralAt : List Char → GoString → Bool
  | [], _ => true
  | _ :: _, [] => false
  | p :: ps, c :: cs => matchRune p c && matchLiteralAt ps cs

/-- Go `regexp.FindString` for a case-folded literal: the text of the leftmost
match, or the empty string when there is none. -/
def FindString (pat : List Char) : GoString → GoString
  | [] => []
  | c :: cs =>
    if matchLiteralAt pat (c :: cs) then (c :: cs).take pat.length
    else FindString pat cs

/-- The literal of the pattern `(?i)conflict`. -/
def conflictPattern : List Char :=
  "conflict".toList

/-- isMergeConflict: the message has a match of `(?i)conflict`. -/
def isMergeConflict (message : GoString) : Bool :=
  FindString conflictPattern message != []

/-- Equality of two texts when letter case is ignored (the wording of the
specification): equal after lower-casing the basic Latin letters. -/
def equalIgnoringCase (a b : GoString) : Prop :=
  a.map Char.toLower = b.map Char.toLower

/-! ## getChangedFiles and findMergeConflicts (pkg/analyzer/bottlenecks.go) -/

/-- Argument vector of the per-commit diff query. -/
def diffTreeCommand (commitHash : GoString) : List GoString :=
  ["git".toList, "diff-tree".toList, "--no-commit-id".toList, "--name-only".toList,
   "-r".toList, commitHash]

/-- getChangedFiles: nil when the command fails, else the newline-split of its
output without the last element (`files[:len(files)-1]`, which panics on an empty
slice). -/
def getChangedFiles (src : HistorySource) (commitHash : GoString) :
    Outcome (List GoString) :=
  match src (diffTreeCommand commitHash) with
  | none => .ok []
  | some out =>
    let files := Split out '\n'
    if files.length = 0 then .panic else .ok (files.take (files.length - 1))

/-- Argument vector of the merge-log query. -/
def mergeLogCommand : List GoString :=
  ["git".toList, "log".toList, "--merges".toList, "--pretty=format:%H %s".toList]

/-- One iteration of the loop `for _, line := range commitLines` of
findMergeConflicts. -/
def mergeLine (src : HistorySource) (mergeCommits : List MergeCommit) (line : GoString) :
    Outcome (List MergeCommit) :=
  let parts := SplitN line ' ' 2
  if parts.length < 2 then .ok mergeCommits
  else
    (index parts 0).bind fun commitHash =>
    (index parts 1).bind fun commitMessage =>
    if isMergeConflict commitMessage then
      (getChangedFiles src commitHash).bind fun files =>
      .ok (mergeCommits ++ [⟨commitHash, commitMessage, files⟩])
    else .ok mergeCommits

/-- The whole loop of findMergeConflicts. -/
def mergeLines (src : HistorySource) (mergeCommits : List MergeCommit) :
    List GoString → Outcome (List MergeCommit)
  | [] => .ok mergeCommits
  | line :: rest => (mergeLine src mergeCommits line).bind fun acc => mergeLines src acc rest

/-- findMergeConflicts: nil when the merge-log command fails, else the conflict
merges of its lines.  (The diagnostic lines printed on a failed command are not
modelled.) -/
def findMergeConflicts (src : HistorySource) : Outcome (List MergeCommit) :=
  match src mergeLogCommand with
  | none => .ok []
  | some out => mergeLines src [] (Split out '\n')

/-! ## DetectBottlenecks (pkg/analyzer/bottlenecks.go) -/

/-- The two counter maps of DetectBottlenecks. -/
structure ChangeCounts where
  fileChangeCounts : GoMap Nat
  authorChangeCounts : GoMap Nat
  deriving DecidableEq, Repr

/-- Body of the loop `for _, commit := range commits`. -/
def countCommit (t : ChangeCounts) (commit : CommitInfo) : ChangeCounts :=
  ⟨(mapKeys commit.Files).foldl mapIncr t.fileChangeCounts,
   mapIncr t.authorChangeCounts commit.Author⟩

/-- The counting loop of DetectBottlenecks. -/
def countChanges (commits : List CommitInfo) : ChangeCounts :=
  commits.foldl countCommit ⟨[], []⟩

/-- One call of a print function, with its arguments. -/
inductive Printed where
  | heading : GoString → Printed
  | changes : GoString → Nat → Printed
  | merge : GoString → GoString → List GoString → Printed
  deriving DecidableEq, Repr

/-- Order in which a `range` loop visits the entries of a counter map; Go leaves it
unspecified, so it is a parameter. -/
abbrev RangeOrder := GoMap Nat → GoMap Nat

/-- A range order visits every entry exactly once. -/
def RangeOrder.Valid (order : RangeOrder) : Prop :=
  ∀ m, (order m).Perm m

/-- Loop `for name, count := range counts` printing the entries above a
threshold. -/
def printAbove (threshold : Nat) (entries : GoMap Nat) : List Printed :=
  entries.filterMap fun e => if e.2 > threshold then some (.changes e.1 e.2) else none

/-- The bottleneck-file section of the report. -/
def fileSection (order : RangeOrder) (commits : List CommitInfo) : List Printed :=
  .heading "Potential bottleneck files (most frequently changed):".toList ::
    printAbove 2 (order (countChanges commits).fileChangeCounts)

/-- The contributor section of the report. -/
def authorSection (order : RangeOrder) (commits : List CommitInfo) : List Printed :=
  .heading "\nPotential bottlenecks caused by contributors:".toList ::
    printAbove 5 (order (countChanges commits).authorChangeCounts)

/-- The merge section of the report. -/
def mergeSection (mergeCommits : List MergeCommit) : List Printed :=
  .heading "\nPotential bottlenecks caused by frequent rollbacks:".toList ::
    mergeCommits.map fun m => .merge m.CommitHash m.Message m.Files

/-- DetectBottlenecks: everything it prints, in order. -/
def DetectBottlenecks (src : HistorySource) (order : RangeOrder)
    (commits : List CommitInfo) : Outcome (List Printed) :=
  (findMergeConflicts src).bind fun mergeCommits =>
  .ok (fileSection order commits ++ authorSection order commits ++
    mergeSection mergeCommits)

/-- Entries of a report section that name `name`. -/
def entriesFor (name : GoString) (section_ : List Printed) : List Printed :=
  section_.filter fun p =>
    match p with
    | .changes n _ => decide (n = name)
    | _ => false

/-- Number of commits whose file set contains `file`. -/
def commitsTouching (file : GoString) (commits : List CommitInfo) : Nat :=
  commits.countP fun c => decide (file ∈ mapKeys c.Files)

/-- Number of commits whose author is `author`. -/
def commitsBy (author : GoString) (commits : List CommitInfo) : Nat :=
  commits.countP fun c => decide (c.Author = author)

/-- Every file map of the slice is a map: its keys are pairwise distinct. -/
def WellFormed (commits : List CommitInfo) : Prop :=
  ∀ c ∈ commits, (mapKeys c.Files).Nodup

/-- Diff output in which every path is newline-terminated. -/
def terminated : List GoString → GoString
  | [] => []
  | p :: ps => p ++ '\n' :: terminated ps

/-- History source that answers the merge-log query with `log`, the diff query
for `hash` with `diff`, and fails every other command. -/
def sourceOf (log hash diff : GoString) : HistorySource :=
  fun argv =>
    if argv = mergeLogCommand then some log
    else if argv = diffTreeCommand hash then some diff
    else none


/-! ## Descriptions used to state the claims -/

/-- A record without its file set: hash, author, date and message only. -/
def withoutFiles (c : CommitInfo) : CommitInfo :=
  ⟨c.Hash, c.Author, c.Date, c.Message, []⟩

/-- Text of a line before its first comma. -/
def firstField (line : GoString) : GoString :=
  line.takeWhile fun c => c != ','

/-- The header lines of a log, in order, each with its block: the comma-free lines
that follow it up to the next header line or the end. -/
def headerBlocks : List GoString → List (GoString × List GoString)
  | [] => []
  | l :: rest =>
    if Contains l ',' then
      (l, rest.takeWhile fun x => !Contains x ',') :: headerBlocks rest
    else headerBlocks rest

/-- The record `c` is the one built from a header line and its block: its four
fields are those of the header line, and its file set is the set of third tokens of
the three-token lines of the block. -/
def BuiltFrom (hb : GoString × List GoString) (c : CommitInfo) : Prop :=
  headerRecord hb.1 = .ok (withoutFiles c) ∧ (mapKeys c.Files).Nodup ∧
  ∀ p, p ∈ mapKeys c.Files ↔ ∃ l ∈ hb.2, statFile l = some p

/-- Does the block have a three-token line whose third token is `path`? -/
def blockNames (path : GoString) (blk : List GoString) : Bool :=
  blk.any fun l => decide (statFile l = some path)

/-- The files getChangedFiles returns for a commit, as a plain value. -/
def changedFiles (src : HistorySource) (commitHash : GoString) : List GoString :=
  match src (diffTreeCommand commitHash) with
  | none => []
  | some out => (Split out '\n').dropLast

/-- The record a merge-log line stands for: a line that splits into a hash and a
conflict-bearing message gives one record, any other line gives none. -/
def conflictMerge (src : HistorySource) (line : GoString) : Option MergeCommit :=
  match SplitN line ' ' 2 with
  | [commitHash, commitMessage] =>
    if isMergeConflict commitMessage then
      some ⟨commitHash, commitMessage, changedFiles src commitHash⟩
    else none
  | _ => none

/-- Commands run by one iteration of the loop of findMergeConflicts: the diff query
of getChangedFiles, when the line has a conflict-bearing message. -/
def mergeLineQueries (line : GoString) : List (List GoString) :=
  let parts := SplitN line ' ' 2
  if parts.length < 2 then []
  else
    match parts.get? 0, parts.get? 1 with
    | some commitHash, some commitMessage =>
      if isMergeConflict commitMessage then [diffTreeCommand commitHash] else []
    | _, _ => []

/-- Commands run by findMergeConflicts, in order: the merge-log query, then the
diff queries of the loop. -/
def mergeQueries (src : HistorySource) : List (List GoString) :=
  mergeLogCommand ::
    match src mergeLogCommand with
    | none => []
    | some out => (Split out '\n').flatMap mergeLineQueries

/-! ## Lemmas on maps -/

theorem mapLookup_mapSet {V : Type} (m : GoMap V) (k k' : GoString) (v : V) :
    mapLookup (mapSet m k v) k' = if k = k' then some v else mapLookup m k' := by
  induction m with
  | nil => simp [mapSet, mapLookup]
  | cons e m ih =>
    obtain ⟨k0, v0⟩ := e
    by_cases h0 : k0 = k
    · subst h0
      by_cases h1 : k0 = k' <;> simp [mapSet, mapLookup, h1]
    · by_cases h1 : k0 = k'
      · subst h1
        have h2 : ¬ k = k0 := fun h => h0 h.symm
        simp [mapSet, mapLookup, h0, h2]
      · simp [mapSet, mapLookup, h0, h1, ih]

theorem mapLookup_mapIncr (m : GoMap Nat) (k k' : GoString) :
    mapLookup (mapIncr m k) k' =
      if k = k' then some ((mapLookup m k').getD 0 + 1) else mapLookup m k' := by
  unfold mapIncr
  rw [mapLookup_mapSet]
  by_cases h : k = k'
  · subst h; simp
  · simp [h]

theorem mapLookup_foldl_mapIncr (keys : List GoString) (hnd : keys.Nodup) (m : GoMap Nat)
    (f : GoString) :
    mapLookup (keys.foldl mapIncr m) f =
      if f ∈ keys then some ((mapLookup m f).getD 0 + 1) else mapLookup m f := by
  induction keys generalizing m with
  | nil => simp
  | cons k keys ih =>
    have hnd' : k ∉ keys ∧ keys.Nodup := List.nodup_cons.mp hnd
    rw [List.foldl_cons, ih hnd'.2, mapLookup_mapIncr]
    by_cases h : k = f
    · subst h
      simp [hnd'.1]
    · have h' : ¬ f = k := fun e => h e.symm
      simp [h, h']

theorem mapKeys_nil {V : Type} : mapKeys ([] : GoMap V) = [] :=
  rfl

theorem mapKeys_cons {V : Type} (k : GoString) (v : V) (m : GoMap V) :
    mapKeys ((k, v) :: m) = k :: mapKeys m :=
  rfl

theorem mapKeys_mapSet {V : Type} (m : GoMap V) (k : GoString) (v : V) (x : GoString) :
    x ∈ mapKeys (mapSet m k v) ↔ x = k ∨ x ∈ mapKeys m := by
  induction m with
  | nil => simp [mapSet, mapKeys_cons, mapKeys_nil]
  | cons e m ih =>
    obtain ⟨k0, v0⟩ := e
    by_cases h0 : k0 = k
    · subst h0; simp [mapSet, mapKeys_cons]
    · simp only [mapSet, h0, if_false, mapKeys_cons, List.mem_cons]
      rw [ih]
      tauto

theorem mapKeys_nodup_mapSet {V : Type} (m : GoMap V) (k : GoString) (v : V)
    (h : (mapKeys m).Nodup) : (mapKeys (mapSet m k v)).Nodup := by
  induction m with
  | nil => simp [mapSet, mapKeys_cons, mapKeys_nil]
  | cons e m ih =>
    obtain ⟨k0, v0⟩ := e
    rw [mapKeys_cons] at h
    have h' : k0 ∉ mapKeys m ∧ (mapKeys m).Nodup := List.nodup_cons.mp h
    by_cases h0 : k0 = k
    · subst h0
      simp only [mapSet, if_true, mapKeys_cons]
      exact h
    · simp only [mapSet, h0, if_false, mapKeys_cons]
      refine List.nodup_cons.mpr ⟨?_, ih h'.2⟩
      rw [mapKeys_mapSet]
      rintro (h1 | h1)
      · exact h0 h1
      · exact h'.1 h1

/-- A key is in the map exactly when the two-value read finds it. -/
theorem mem_mapKeys_iff {V : Type} (m : GoMap V) (k : GoString) :
    k ∈ mapKeys m ↔ ∃ v, mapLookup m k = some v := by
  induction m with
  | nil => simp [mapKeys_nil, mapLookup]
  | cons e m ih =>
    obtain ⟨k0, v0⟩ := e
    by_cases h0 : k0 = k
    · subst h0; simp [mapKeys_cons, mapLookup]
    · have h1 : ¬ k = k0 := fun h => h0 h.symm
      simp only [mapKeys_cons, List.mem_cons, mapLookup, h0, h1, if_false, false_or]
      exact ih

/-! ## Lemmas on the counting loop -/

theorem countCommit_files (t : ChangeCounts) (c : CommitInfo) :
    (countCommit t c).fileChangeCounts = (mapKeys c.Files).foldl mapIncr t.fileChangeCounts :=
  rfl

theorem countCommit_authors (t : ChangeCounts) (c : CommitInfo) :
    (countCommit t c).authorChangeCounts = mapIncr t.authorChangeCounts c.Author :=
  rfl

theorem lookup_files_foldl (commits : List CommitInfo) (hwf : WellFormed commits)
    (t : ChangeCounts) (f : GoString) :
    mapLookup (commits.foldl countCommit t).fileChangeCounts f =
      if commitsTouching f commits = 0 then mapLookup t.fileChangeCounts f
      else some ((mapLookup t.fileChangeCounts f).getD 0 + commitsTouching f commits) := by
  induction commits generalizing t with
  | nil => simp [commitsTouching]
  | cons c commits ih =>
    have hwf' : WellFormed commits := fun c' hc' => hwf c' (List.mem_cons_of_mem _ hc')
    have hnd : (mapKeys c.Files).Nodup := hwf c (List.mem_cons_self _ _)
    rw [List.foldl_cons, ih hwf', countCommit_files, mapLookup_foldl_mapIncr _ hnd]
    by_cases hmem : f ∈ mapKeys c.Files
    · have ht : commitsTouching f (c :: commits) = commitsTouching f commits + 1 := by
        simp [commitsTouching, List.countP_cons, hmem]
      rw [ht]
      by_cases h0 : commitsTouching f commits = 0
      · simp [h0, hmem]
      · simp [h0, hmem]; omega
    · have ht : commitsTouching f (c :: commits) = commitsTouching f commits := by
        simp [commitsTouching, List.countP_cons, hmem]
      rw [ht]
      simp [hmem]

theorem lookup_authors_foldl (commits : List CommitInfo) (t : ChangeCounts) (a : GoString) :
    mapLookup (commits.foldl countCommit t).authorChangeCounts a =
      if commitsBy a commits = 0 then mapLookup t.authorChangeCounts a
      else some ((mapLookup t.authorChangeCounts a).getD 0 + commitsBy a commits) := by
  induction commits generalizing t with
  | nil => simp [commitsBy]
  | cons c commits ih =>
    rw [List.foldl_cons, ih, countCommit_authors, mapLookup_mapIncr]
    by_cases h : c.Author = a
    · have ht : commitsBy a (c :: commits) = commitsBy a commits + 1 := by
        simp [commitsBy, List.countP_cons, h]
      rw [ht]
      by_cases h0 : commitsBy a commits = 0
      · simp [h0, h]
      · simp [h0, h]; omega
    · have ht : commitsBy a (c :: commits) = commitsBy a commits := by
        simp [commitsBy, List.countP_cons, h]
      rw [ht]
      simp [h]


theorem nodup_foldl_mapIncr (keys : List GoString) (m : GoMap Nat) (h : (mapKeys m).Nodup) :
    (mapKeys (keys.foldl mapIncr m)).Nodup := by
  induction keys generalizing m with
  | nil => exact h
  | cons k keys ih => exact ih _ (mapKeys_nodup_mapSet m k _ h)

theorem nodup_foldl_countCommit (commits : List CommitInfo) (t : ChangeCounts)
    (hf : (mapKeys t.fileChangeCounts).Nodup) (ha : (mapKeys t.authorChangeCounts).Nodup) :
    (mapKeys (commits.foldl countCommit t).fileChangeCounts).Nodup ∧
    (mapKeys (commits.foldl countCommit t).authorChangeCounts).Nodup := by
  induction commits generalizing t with
  | nil => exact ⟨hf, ha⟩
  | cons c commits ih =>
    exact ih _ (nodup_foldl_mapIncr _ _ hf) (mapKeys_nodup_mapSet _ _ _ ha)

theorem nodup_countChanges (commits : List CommitInfo) :
    (mapKeys (countChanges commits).fileChangeCounts).Nodup ∧
    (mapKeys (countChanges commits).authorChangeCounts).Nodup :=
  nodup_foldl_countCommit commits ⟨[], []⟩ List.nodup_nil List.nodup_nil

/-! ## Lemmas on the printing loops -/

theorem filter_key_of_not_mem (m : GoMap Nat) (name : GoString) (h : name ∉ mapKeys m) :
    m.filter (fun e => decide (e.1 = name)) = [] := by
  induction m with
  | nil => rfl
  | cons e m ih =>
    obtain ⟨k0, v0⟩ := e
    rw [mapKeys_cons] at h
    have h0 : ¬ k0 = name := fun e => h (by simp [e])
    have h1 : name ∉ mapKeys m := fun e => h (List.mem_cons_of_mem _ e)
    simp [List.filter_cons, h0, ih h1]

theorem filter_key_eq (m : GoMap Nat) (hnd : (mapKeys m).Nodup) (name : GoString) :
    m.filter (fun e => decide (e.1 = name)) =
      match mapLookup m name with
      | some n => [(name, n)]
      | none => [] := by
  induction m with
  | nil => rfl
  | cons e m ih =>
    obtain ⟨k0, v0⟩ := e
    rw [mapKeys_cons] at hnd
    have h' : k0 ∉ mapKeys m ∧ (mapKeys m).Nodup := List.nodup_cons.mp hnd
    by_cases h0 : k0 = name
    · subst h0
      simp [List.filter_cons, mapLookup, filter_key_of_not_mem m k0 h'.1]
    · simp only [List.filter_cons, h0, decide_False, mapLookup, if_false]
      exact ih h'.2

theorem filter_key_perm (es m : GoMap Nat) (hperm : es.Perm m) (hnd : (mapKeys m).Nodup)
    (name : GoString) :
    es.filter (fun e => decide (e.1 = name)) =
      match mapLookup m name with
      | some n => [(name, n)]
      | none => [] := by
  have hp : (es.filter (fun e => decide (e.1 = name))).Perm
      (m.filter (fun e => decide (e.1 = name))) := hperm.filter _
  rw [filter_key_eq m hnd name] at hp
  cases hl : mapLookup m name with
  | none =>
    rw [hl] at hp
    exact List.Perm.eq_nil hp
  | some n =>
    rw [hl] at hp
    exact List.perm_singleton.mp hp

theorem entriesFor_printAbove (t : Nat) (es : GoMap Nat) (name : GoString) :
    entriesFor name (printAbove t es) =
      printAbove t (es.filter (fun e => decide (e.1 = name))) := by
  induction es with
  | nil => rfl
  | cons e es ih =>
    obtain ⟨k0, v0⟩ := e
    unfold entriesFor printAbove at ih ⊢
    by_cases h0 : k0 = name <;> by_cases h1 : v0 > t <;>
      simp [List.filterMap_cons, List.filter_cons, h0, h1, ih]

/-- Entries naming `name` in a section printed from a counter map. -/
theorem entriesFor_section (order : RangeOrder) (horder : order.Valid) (m : GoMap Nat)
    (hnd : (mapKeys m).Nodup) (t : Nat) (name heading : GoString) :
    entriesFor name (Printed.heading heading :: printAbove t (order m)) =
      match mapLookup m name with
      | some n => if n > t then [Printed.changes name n] else []
      | none => [] := by
  have h1 : entriesFor name (Printed.heading heading :: printAbove t (order m)) =
      entriesFor name (printAbove t (order m)) := by
    simp [entriesFor, List.filter_cons]
  rw [h1, entriesFor_printAbove, filter_key_perm (order m) m (horder m) hnd name]
  cases mapLookup m name with
  | none => rfl
  | some n =>
    by_cases h : n > t <;> simp [printAbove, h]

theorem mem_entriesFor (name : GoString) (n : Nat) (sec : List Printed) :
    Printed.changes name n ∈ entriesFor name sec ↔ Printed.changes name n ∈ sec := by
  simp [entriesFor, List.mem_filter]


/-! ## The frequency tables and the report sections -/

theorem lookup_fileChangeCounts (commits : List CommitInfo) (hwf : WellFormed commits)
    (f : GoString) :
    mapLookup (countChanges commits).fileChangeCounts f =
      (if commitsTouching f commits = 0 then none
       else some (commitsTouching f commits)) := by
  have h := lookup_files_foldl commits hwf ⟨[], []⟩ f
  simpa [countChanges, mapLookup] using h

theorem lookup_authorChangeCounts (commits : List CommitInfo) (a : GoString) :
    mapLookup (countChanges commits).authorChangeCounts a =
      (if commitsBy a commits = 0 then none else some (commitsBy a commits)) := by
  have h := lookup_authors_foldl commits ⟨[], []⟩ a
  simpa [countChanges, mapLookup] using h

/-- C2: for well-formed commit records the file-frequency table built by
DetectBottlenecks maps every path to the number of commits whose file set contains
it, and has no entry for a path that no commit touches; commits A with files x.go,
y.go and B with file x.go (both by alice) give the table x.go: 2, y.go: 1. -/
theorem fileChangeCounts_spec (commits : List CommitInfo) (hwf : WellFormed commits)
    (f : GoString) :
    mapLookup (countChanges commits).fileChangeCounts f =
        (if commitsTouching f commits = 0 then none
         else some (commitsTouching f commits)) ∧
    (countChanges
        [⟨"A".toList, "alice".toList, [], [], [("x.go".toList, 1), ("y.go".toList, 1)]⟩,
         ⟨"B".toList, "alice".toList, [], [], [("x.go".toList, 1)]⟩]).fileChangeCounts =
      [("x.go".toList, 2), ("y.go".toList, 1)] := by
  exact ⟨lookup_fileChangeCounts commits hwf f, by decide⟩

/-- Instance: three commits, two of which touch y.go. -/
theorem fileChangeCounts_spec_witness :
    WellFormed
        [⟨"A".toList, "alice".toList, [], [], [("x.go".toList, 1), ("y.go".toList, 1)]⟩,
         ⟨"B".toList, "alice".toList, [], [], [("y.go".toList, 1)]⟩,
         ⟨"C".toList, "carol".toList, [], [], []⟩] ∧
    mapLookup (countChanges
        [⟨"A".toList, "alice".toList, [], [], [("x.go".toList, 1), ("y.go".toList, 1)]⟩,
         ⟨"B".toList, "alice".toList, [], [], [("y.go".toList, 1)]⟩,
         ⟨"C".toList, "carol".toList, [], [], []⟩]).fileChangeCounts "y.go".toList =
      some 2 := by
  have hwf : WellFormed
        [⟨"A".toList, "alice".toList, [], [], [("x.go".toList, 1), ("y.go".toList, 1)]⟩,
         ⟨"B".toList, "alice".toList, [], [], [("y.go".toList, 1)]⟩,
         ⟨"C".toList, "carol".toList, [], [], []⟩] := by
    unfold WellFormed; decide
  exact ⟨hwf, (fileChangeCounts_spec _ hwf "y.go".toList).1.trans (by decide)⟩

/-- C3: the author-frequency table built by DetectBottlenecks maps every author to
the number of commits whose Author field equals it (no entry when there is none),
whatever the file sets are; a commit with an empty file set counts once. -/
theorem authorChangeCounts_spec (commits : List CommitInfo) (a : GoString) :
    mapLookup (countChanges commits).authorChangeCounts a =
        (if commitsBy a commits = 0 then none else some (commitsBy a commits)) ∧
    ∀ h d m : GoString,
      mapLookup (countChanges (commits ++ [⟨h, a, d, m, []⟩])).authorChangeCounts a =
        some (commitsBy a commits + 1) := by
  refine ⟨lookup_authorChangeCounts commits a, ?_⟩
  intro h d m
  rw [lookup_authorChangeCounts]
  simp [commitsBy, List.countP_append]

/-- C4: whatever order the range loop visits the table in, the bottleneck-file
section lists a path exactly when more than 2 commits touch it, then exactly once
and with that number; a path touched by exactly 2 commits is not listed and a path
touched by exactly 3 commits is listed. -/
theorem fileSection_spec (order : RangeOrder) (horder : order.Valid)
    (commits : List CommitInfo) (hwf : WellFormed commits) (f : GoString) :
    entriesFor f (fileSection order commits) =
        (if 2 < commitsTouching f commits
         then [Printed.changes f (commitsTouching f commits)] else []) ∧
    ((∃ n, Printed.changes f n ∈ fileSection order commits) ↔
        2 < commitsTouching f commits) ∧
    (commitsTouching f commits = 2 → ∀ n, Printed.changes f n ∉ fileSection order commits) ∧
    (commitsTouching f commits = 3 →
        entriesFor f (fileSection order commits) = [Printed.changes f 3]) := by
  have hent : entriesFor f (fileSection order commits) =
      (if 2 < commitsTouching f commits
       then [Printed.changes f (commitsTouching f commits)] else []) := by
    unfold fileSection
    rw [entriesFor_section order horder _ (nodup_countChanges commits).1,
      lookup_fileChangeCounts commits hwf f]
    by_cases h0 : commitsTouching f commits = 0
    · simp [h0]
    · simp only [h0, if_false]
  have hmem : ∀ n, Printed.changes f n ∈ fileSection order commits ↔
      (2 < commitsTouching f commits ∧ n = commitsTouching f commits) := by
    intro n
    rw [← mem_entriesFor, hent]
    by_cases h : 2 < commitsTouching f commits <;> simp [h]
  refine ⟨hent, ?_, ?_, ?_⟩
  · constructor
    · rintro ⟨n, hn⟩
      exact ((hmem n).mp hn).1
    · intro h
      exact ⟨_, (hmem _).mpr ⟨h, rfl⟩⟩
  · intro h2 n hn
    have := ((hmem n).mp hn).1
    omega
  · intro h3
    rw [hent, h3]
    rfl

/-- C5: whatever order the range loop visits the table in, the contributor section
lists an author exactly when more than 5 commits have that author, then exactly
once and with that number; an author of exactly 5 commits is not listed, and six
commits that all have the same author give that author the count 6 and exactly one
entry. -/
theorem authorSection_spec (order : RangeOrder) (horder : order.Valid)
    (commits : List CommitInfo) (a : GoString) :
    entriesFor a (authorSection order commits) =
        (if 5 < commitsBy a commits
         then [Printed.changes a (commitsBy a commits)] else []) ∧
    ((∃ n, Printed.changes a n ∈ authorSection order commits) ↔
        5 < commitsBy a commits) ∧
    (commitsBy a commits = 5 → ∀ n, Printed.changes a n ∉ authorSection order commits) ∧
    (commits.length = 6 → (∀ c ∈ commits, c.Author = a) →
        mapLookup (countChanges commits).authorChangeCounts a = some 6 ∧
        entriesFor a (authorSection order commits) = [Printed.changes a 6]) := by
  have hent : entriesFor a (authorSection order commits) =
      (if 5 < commitsBy a commits
       then [Printed.changes a (commitsBy a commits)] else []) := by
    unfold authorSection
    rw [entriesFor_section order horder _ (nodup_countChanges commits).2,
      lookup_authorChangeCounts commits a]
    by_cases h0 : commitsBy a commits = 0
    · simp [h0]
    · simp only [h0, if_false]
  have hmem : ∀ n, Printed.changes a n ∈ authorSection order commits ↔
      (5 < commitsBy a commits ∧ n = commitsBy a commits) := by
    intro n
    rw [← mem_entriesFor, hent]
    by_cases h : 5 < commitsBy a commits <;> simp [h]
  refine ⟨hent, ?_, ?_, ?_⟩
  · constructor
    · rintro ⟨n, hn⟩
      exact ((hmem n).mp hn).1
    · intro h
      exact ⟨_, (hmem _).mpr ⟨h, rfl⟩⟩
  · intro h5 n hn
    have := ((hmem n).mp hn).1
    omega
  · intro hlen hall
    have hby : commitsBy a commits = 6 := by
      unfold commitsBy
      rw [← hlen, List.countP_eq_length]
      intro c hc
      simpa using hall c hc
    refine ⟨?_, ?_⟩
    · rw [lookup_authorChangeCounts commits a, hby]
      rfl
    · rw [hent, hby]
      rfl

/-- Instance: three commits touching x.go, visited in reverse order. -/
theorem fileSection_spec_witness :
    RangeOrder.Valid List.reverse ∧
    WellFormed
        [⟨"A".toList, "alice".toList, [], [], [("x.go".toList, 1), ("y.go".toList, 1)]⟩,
         ⟨"B".toList, "bob".toList, [], [], [("y.go".toList, 1), ("x.go".toList, 1)]⟩,
         ⟨"C".toList, "carol".toList, [], [], [("x.go".toList, 1)]⟩] ∧
    entriesFor "x.go".toList (fileSection List.reverse
        [⟨"A".toList, "alice".toList, [], [], [("x.go".toList, 1), ("y.go".toList, 1)]⟩,
         ⟨"B".toList, "bob".toList, [], [], [("y.go".toList, 1), ("x.go".toList, 1)]⟩,
         ⟨"C".toList, "carol".toList, [], [], [("x.go".toList, 1)]⟩]) =
      [Printed.changes "x.go".toList 3] := by
  have hwf : WellFormed
        [⟨"A".toList, "alice".toList, [], [], [("x.go".toList, 1), ("y.go".toList, 1)]⟩,
         ⟨"B".toList, "bob".toList, [], [], [("y.go".toList, 1), ("x.go".toList, 1)]⟩,
         ⟨"C".toList, "carol".toList, [], [], [("x.go".toList, 1)]⟩] := by
    unfold WellFormed; decide
  exact ⟨fun m => List.reverse_perm m, hwf,
    (fileSection_spec List.reverse (fun m => List.reverse_perm m) _ hwf
      "x.go".toList).1.trans (by decide)⟩

/-- Instance: six of seven commits are by bob, visited in reverse order. -/
theorem authorSection_spec_witness :
    RangeOrder.Valid List.reverse ∧
    entriesFor "bob".toList (authorSection List.reverse
        [⟨"1".toList, "bob".toList, [], [], [("a".toList, 1)]⟩,
         ⟨"2".toList, "bob".toList, [], [], [("b".toList, 1)]⟩,
         ⟨"3".toList, "bob".toList, [], [], [("c".toList, 1)]⟩,
         ⟨"4".toList, "eve".toList, [], [], [("d".toList, 1)]⟩,
         ⟨"5".toList, "bob".toList, [], [], [("e".toList, 1)]⟩,
         ⟨"6".toList, "bob".toList, [], [], [("f".toList, 1)]⟩,
         ⟨"7".toList, "bob".toList, [], [], []⟩]) =
      [Printed.changes "bob".toList 6] :=
  ⟨fun m => List.reverse_perm m,
    (authorSection_spec List.reverse (fun m => List.reverse_perm m) _
      "bob".toList).1.trans (by decide)⟩


/-! ## isMergeConflict -/

theorem toNat_ofNat_small (m : Nat) (h : m < 0xd800) : (Char.ofNat m).toNat = m := by
  have hv : m.isValidChar := Or.inl h
  rw [Char.ofNat, dif_pos hv]
  rfl

theorem char_eq_of_toNat_eq (r p : Char) (h : r.toNat = p.toNat) : r = p := by
  rw [← Char.ofNat_toNat r, ← Char.ofNat_toNat p, h]

/-- Lower-casing yields the lower-case letter `p` exactly on `p` and on its capital. -/
theorem toLower_eq_iff (p r : Char) (hp : 97 ≤ p.toNat ∧ p.toNat ≤ 122) :
    r.toLower = p ↔ (r.toNat = p.toNat ∨ r.toNat + 32 = p.toNat) := by
  unfold Char.toLower
  by_cases hr : r.toNat ≥ 65 ∧ r.toNat ≤ 90
  · simp only [hr, and_self, if_true]
    constructor
    · intro h
      have h2 : (Char.ofNat (r.toNat + 32)).toNat = p.toNat := by rw [h]
      rw [toNat_ofNat_small _ (by omega)] at h2
      exact Or.inr h2
    · rintro (h | h)
      · omega
      · rw [h]; exact Char.ofNat_toNat p
  · simp only [hr, if_false]
    constructor
    · intro h; exact Or.inl (by rw [h])
    · rintro (h | h)
      · exact char_eq_of_toNat_eq r p h
      · exact absurd ⟨by omega, by omega⟩ hr

theorem matchRune_lower (p up r : Char) (hp : 97 ≤ p.toNat ∧ p.toNat ≤ 122)
    (h1 : SimpleFold p = up) (h2 : SimpleFold up = p) (hup : up.toNat + 32 = p.toNat) :
    matchRune p r = true ↔ r.toLower = p := by
  rw [toLower_eq_iff p r hp]
  unfold matchRune
  rw [h1, h2]
  simp only [Bool.or_eq_true, decide_eq_true_eq]
  constructor
  · rintro ((h | h) | h)
    · exact Or.inl (by rw [h])
    · exact Or.inr (by rw [h]; exact hup)
    · exact Or.inl (by rw [h])
  · rintro (h | h)
    · exact Or.inl (Or.inl (char_eq_of_toNat_eq r p h))
    · exact Or.inl (Or.inr (char_eq_of_toNat_eq r up (by omega)))

theorem matchRune_conflict (p : Char) (hp : p ∈ conflictPattern) (r : Char) :
    matchRune p r = true ↔ r.toLower = p := by
  have hp' : p = 'c' ∨ p = 'o' ∨ p = 'n' ∨ p = 'f' ∨ p = 'l' ∨ p = 'i' ∨ p = 't' := by
    have : p ∈ ['c', 'o', 'n', 'f', 'l', 'i', 'c', 't'] := hp
    simp only [List.mem_cons, List.mem_nil_iff, or_false] at this
    tauto
  rcases hp' with h | h | h | h | h | h | h <;> subst h
  · exact matchRune_lower 'c' 'C' r (by decide) (by decide) (by decide) (by decide)
  · exact matchRune_lower 'o' 'O' r (by decide) (by decide) (by decide) (by decide)
  · exact matchRune_lower 'n' 'N' r (by decide) (by decide) (by decide) (by decide)
  · exact matchRune_lower 'f' 'F' r (by decide) (by decide) (by decide) (by decide)
  · exact matchRune_lower 'l' 'L' r (by decide) (by decide) (by decide) (by decide)
  · exact matchRune_lower 'i' 'I' r (by decide) (by decide) (by decide) (by decide)
  · exact matchRune_lower 't' 'T' r (by decide) (by decide) (by decide) (by decide)

theorem matchLiteralAt_iff (pat : List Char)
    (hpat : ∀ p ∈ pat, ∀ r, matchRune p r = true ↔ r.toLower = p) (s : GoString) :
    matchLiteralAt pat s = true ↔ (s.take pat.length).map Char.toLower = pat := by
  induction pat generalizing s with
  | nil => simp [matchLiteralAt]
  | cons p ps ih =>
    cases s with
    | nil => simp [matchLiteralAt]
    | cons c cs =>
      have ih' := ih (fun q hq => hpat q (List.mem_cons_of_mem _ hq)) cs
      have hp := hpat p (List.mem_cons_self _ _) c
      simp only [matchLiteralAt, Bool.and_eq_true, List.length_cons, List.take_succ_cons,
        List.map_cons, List.cons.injEq]
      rw [hp, ih']

theorem findString_ne_nil_iff (pat : List Char) (hne : pat ≠ [])
    (hpat : ∀ p ∈ pat, ∀ r, matchRune p r = true ↔ r.toLower = p) (s : GoString) :
    FindString pat s ≠ [] ↔
      ∃ pre mid post, s = pre ++ mid ++ post ∧ mid.length = pat.length ∧
        mid.map Char.toLower = pat := by
  have hlen : 0 < pat.length := List.length_pos.mpr hne
  induction s with
  | nil =>
    simp only [FindString, ne_eq, not_true_eq_false, false_iff]
    rintro ⟨pre, mid, post, h1, h2, -⟩
    have : mid = [] := by
      have := congrArg List.length h1
      simp at this
      exact List.eq_nil_of_length_eq_zero (by omega)
    rw [this] at h2
    simp at h2
    omega
  | cons c cs ih =>
    by_cases hm : matchLiteralAt pat (c :: cs) = true
    · have hm' := (matchLiteralAt_iff pat hpat (c :: cs)).mp hm
      have hl : ((c :: cs).take pat.length).length = pat.length := by
        have := congrArg List.length hm'
        simpa using this
      simp only [FindString, hm, if_true]
      constructor
      · intro _
        exact ⟨[], (c :: cs).take pat.length, (c :: cs).drop pat.length,
          by simp, hl, hm'⟩
      · intro _ h
        rw [h] at hl
        simp at hl
        omega
    · simp only [FindString, hm]
      refine ih.trans ?_
      constructor
      · rintro ⟨pre, mid, post, h1, h2, h3⟩
        exact ⟨c :: pre, mid, post, by simp [h1], h2, h3⟩
      · rintro ⟨pre, mid, post, h1, h2, h3⟩
        cases pre with
        | nil =>
          exfalso
          apply hm
          rw [matchLiteralAt_iff pat hpat, h1]
          simp only [List.nil_append]
          rw [← h2, List.take_left]
          exact h3
        | cons a pre =>
          simp only [List.cons_append, List.cons.injEq] at h1
          exact ⟨pre, mid, post, h1.2, h2, h3⟩

/-- C6: isMergeConflict is true exactly on the messages that have a contiguous
substring of length 8 equal to "conflict" when letter case is ignored; it is true for
"Conflict in merge", "CONFLICT" and "conflicting", false for "no issues" and for the
empty message. -/
theorem isMergeConflict_spec (m : GoString) :
    (isMergeConflict m = true ↔
      ∃ pre mid post, m = pre ++ mid ++ post ∧ mid.length = 8 ∧
        equalIgnoringCase mid "conflict".toList) ∧
    isMergeConflict "Conflict in merge".toList = true ∧
    isMergeConflict "CONFLICT".toList = true ∧
    isMergeConflict "conflicting".toList = true ∧
    isMergeConflict "no issues".toList = false ∧
    isMergeConflict [] = false := by
  refine ⟨?_, by decide, by decide, by decide, by decide, by decide⟩
  have h := findString_ne_nil_iff conflictPattern (by decide) matchRune_conflict m
  have hl : conflictPattern.length = 8 := by decide
  have hm : List.map Char.toLower "conflict".toList = conflictPattern := by decide
  unfold isMergeConflict equalIgnoringCase
  rw [hm, bne_iff_ne, h, hl]


/-! ## Lemmas on splitting -/

theorem cutAt_of_not_mem (sep : Char) (s : GoString) (h : sep ∉ s) : cutAt sep s = none := by
  induction s with
  | nil => rfl
  | cons c cs ih =>
    have h1 : ¬ c = sep := fun e => h (by simp [e])
    have h2 : sep ∉ cs := fun e => h (List.mem_cons_of_mem _ e)
    simp [cutAt, h1, ih h2]

theorem cutAt_append (sep : Char) (h rest : GoString) (hh : sep ∉ h) :
    cutAt sep (h ++ sep :: rest) = some (h, rest) := by
  induction h with
  | nil => simp [cutAt]
  | cons c cs ih =>
    have h1 : ¬ c = sep := fun e => hh (by simp [e])
    have h2 : sep ∉ cs := fun e => hh (List.mem_cons_of_mem _ e)
    simp [cutAt, h1, ih h2]

theorem genSplit_of_not_mem (sep : Char) (k : Nat) (s : GoString) (h : sep ∉ s) :
    genSplit sep k s = [s] := by
  cases k with
  | zero => rfl
  | succ k => simp [genSplit, cutAt_of_not_mem sep s h]

theorem genSplit_append (sep : Char) (k : Nat) (h rest : GoString) (hh : sep ∉ h) :
    genSplit sep (k + 1) (h ++ sep :: rest) = h :: genSplit sep k rest := by
  simp [genSplit, cutAt_append sep h rest hh]

theorem contains_iff_mem (s : GoString) (sep : Char) : Contains s sep = true ↔ sep ∈ s := by
  simp [Contains]

theorem count_terminated (ps : List GoString) (h : ∀ p ∈ ps, '\n' ∉ p) :
    Count (terminated ps) '\n' = ps.length := by
  induction ps with
  | nil => rfl
  | cons p ps ih =>
    have h1 : '\n' ∉ p := h p (List.mem_cons_self _ _)
    have h2 := ih (fun q hq => h q (List.mem_cons_of_mem _ hq))
    unfold Count at h2 ⊢
    simp only [terminated, List.count_append, List.count_cons_self, List.length_cons]
    rw [h2, List.count_eq_zero_of_not_mem h1]
    omega

theorem genSplit_terminated (ps : List GoString) (h : ∀ p ∈ ps, '\n' ∉ p) (k : Nat)
    (hk : ps.length ≤ k) : genSplit '\n' k (terminated ps) = ps ++ [[]] := by
  induction ps generalizing k with
  | nil =>
    exact genSplit_of_not_mem '\n' k [] (by simp)
  | cons p ps ih =>
    have h1 : '\n' ∉ p := h p (List.mem_cons_self _ _)
    cases k with
    | zero => simp at hk
    | succ k =>
      simp only [terminated]
      rw [genSplit_append '\n' k p _ h1,
        ih (fun q hq => h q (List.mem_cons_of_mem _ hq)) k (by simpa using hk)]
      rfl

theorem split_terminated (ps : List GoString) (h : ∀ p ∈ ps, '\n' ∉ p) :
    Split (terminated ps) '\n' = ps ++ [[]] := by
  unfold Split
  rw [count_terminated ps h]
  exact genSplit_terminated ps h _ (Nat.le_refl _)

/-! ## getChangedFiles and findMergeConflicts -/

/-- C9: when the diff query answers with the newline-free, non-empty paths `ps`,
each terminated by a newline, getChangedFiles returns exactly `ps`, in order, with
no empty element; the merge-log line "abc123 Resolved conflict in payment module"
with diff output "a.go\nb.go\n" yields one MergeCommit with that hash, that message
and the files a.go, b.go. -/
theorem getChangedFiles_terminated (src : HistorySource) (commitHash : GoString)
    (ps : List GoString) (hps : ∀ p ∈ ps, p ≠ [] ∧ '\n' ∉ p)
    (hout : src (diffTreeCommand commitHash) = some (terminated ps)) :
    getChangedFiles src commitHash = .ok ps ∧ [] ∉ ps ∧
    findMergeConflicts (sourceOf "abc123 Resolved conflict in payment module".toList
        "abc123".toList "a.go\nb.go\n".toList) =
      .ok [⟨"abc123".toList, "Resolved conflict in payment module".toList,
        ["a.go".toList, "b.go".toList]⟩] := by
  refine ⟨?_, fun hmem => (hps [] hmem).1 rfl, by decide⟩
  unfold getChangedFiles
  rw [hout]
  simp only [split_terminated ps (fun p hp => (hps p hp).2)]
  simp

/-- Instance: a diff output with two newline-terminated paths. -/
theorem getChangedFiles_terminated_witness :
    (∀ p ∈ ["x.go".toList, "dir/y.go".toList], p ≠ [] ∧ '\n' ∉ p) ∧
    sourceOf [] "f00".toList "x.go\ndir/y.go\n".toList (diffTreeCommand "f00".toList) =
      some (terminated ["x.go".toList, "dir/y.go".toList]) ∧
    getChangedFiles (sourceOf [] "f00".toList "x.go\ndir/y.go\n".toList) "f00".toList =
      .ok ["x.go".toList, "dir/y.go".toList] :=
  ⟨by decide, by decide,
    (getChangedFiles_terminated (sourceOf [] "f00".toList "x.go\ndir/y.go\n".toList)
      "f00".toList ["x.go".toList, "dir/y.go".toList] (by decide) (by decide)).1⟩

/-- C10 fails as stated: with two spaces between hash and message the message keeps
the second space, and with a tab between them the line yields no record at all,
unlike the line with one space. -/
theorem findMergeConflicts_whitespace_run_counterexample :
    findMergeConflicts (sourceOf "abc conflict".toList [] []) =
      .ok [⟨"abc".toList, "conflict".toList, []⟩] ∧
    findMergeConflicts (sourceOf "abc  conflict".toList [] []) =
      .ok [⟨"abc".toList, " conflict".toList, []⟩] ∧
    findMergeConflicts (sourceOf "abc\tconflict".toList [] []) = .ok [] ∧
    findMergeConflicts (sourceOf "abc  conflict".toList [] []) ≠
      findMergeConflicts (sourceOf "abc conflict".toList [] []) ∧
    findMergeConflicts (sourceOf "abc\tconflict".toList [] []) ≠
      findMergeConflicts (sourceOf "abc conflict".toList [] []) := by
  decide

/-- C10 (amended): a merge-log line is split at its first space character only: for
a line `h ++ " " ++ m` with no space in `h`, the hash is `h` and the message is
everything after that one space, so the loop appends the record of `h` and `m` when
`m` is conflict-bearing and nothing otherwise; a line without a space yields no
record. -/
theorem mergeLine_first_space (src : HistorySource) (acc : List MergeCommit)
    (h m : GoString) (hh : ' ' ∉ h) :
    SplitN (h ++ ' ' :: m) ' ' 2 = [h, m] ∧
    mergeLine src acc (h ++ ' ' :: m) =
      (if isMergeConflict m then
        (getChangedFiles src h).bind fun files => .ok (acc ++ [⟨h, m, files⟩])
       else .ok acc) ∧
    ∀ line : GoString, ' ' ∉ line → mergeLine src acc line = .ok acc := by
  have hs : SplitN (h ++ ' ' :: m) ' ' 2 = [h, m] := by
    unfold SplitN
    simp only [show ¬ (2 = 0) by decide, if_false]
    rw [genSplit_append ' ' 0 h m hh]
    rfl
  refine ⟨hs, ?_, ?_⟩
  · unfold mergeLine
    simp only [hs]
    simp [index, Outcome.bind]
  · intro line hl
    have hs' : SplitN line ' ' 2 = [line] := by
      unfold SplitN
      simp only [show ¬ (2 = 0) by decide, if_false]
      exact genSplit_of_not_mem ' ' _ line hl
    unfold mergeLine
    simp [hs']

/-- Instance: a message that starts with a tab and a space. -/
theorem mergeLine_first_space_witness :
    ' ' ∉ "abc".toList ∧
    mergeLine (sourceOf [] "abc".toList "a.go\n".toList) []
        ("abc".toList ++ ' ' :: "\t merge conflict, again".toList) =
      .ok [⟨"abc".toList, "\t merge conflict, again".toList, ["a.go".toList]⟩] :=
  ⟨by decide,
    (mergeLine_first_space (sourceOf [] "abc".toList "a.go\n".toList) []
      "abc".toList "\t merge conflict, again".toList (by decide)).2.1.trans (by decide)⟩

/-! ## The commit parser -/

theorem splitN_header (h a d m : GoString) (hh : ',' ∉ h) (ha : ',' ∉ a) (hd : ',' ∉ d) :
    SplitN (h ++ ',' :: (a ++ ',' :: (d ++ ',' :: m))) ',' 4 = [h, a, d, m] := by
  unfold SplitN
  simp only [show ¬ (4 = 0) by decide, if_false]
  rw [genSplit_append ',' 2 h _ hh, genSplit_append ',' 1 a _ ha,
    genSplit_append ',' 0 d _ hd]
  rfl

/-- C1 fails on the code: a stat line whose path contains a comma is taken for a
header line, splits into two fields, and the access `fields[2]` panics. -/
theorem parseCommitLog_panics :
    parseCommitLog "abc,alice,Mon,msg\n1\t2\ta,b.go".toList = .panic ∧
    getCommitHistory (fun _ => some "abc,alice,Mon,msg\n1\t2\ta,b.go".toList)
      "repo".toList = .panic := by
  decide

/-- C7: on a header line `h,a,d,m` whose first three fields contain no comma, the
loop body appends a record with Hash `h`, Author `a`, Date `d` and the whole of `m`
as Message, commas included, makes it the current commit and gives it a fresh, empty
file map. -/
theorem parseLine_header (st : ParseState) (h a d m : GoString)
    (hh : ',' ∉ h) (ha : ',' ∉ a) (hd : ',' ∉ d) :
    parseLine st (h ++ ',' :: (a ++ ',' :: (d ++ ',' :: m))) =
      .ok ⟨st.maps ++ [[]], st.commits ++ [⟨h, a, d, m, st.maps.length⟩],
        some ⟨h, a, d, m, st.maps.length⟩⟩ ∧
    readCell (st.maps ++ [[]]) ⟨h, a, d, m, st.maps.length⟩ = ⟨h, a, d, m, []⟩ := by
  constructor
  · have hc : Contains (h ++ ',' :: (a ++ ',' :: (d ++ ',' :: m))) ',' = true := by
      rw [contains_iff_mem]; simp
    unfold parseLine
    simp only [hc, if_true, splitN_header h a d m hh ha hd]
    simp [index, Outcome.bind]
  · simp [readCell]

/-- Instance: a header line whose message contains commas. -/
theorem parseLine_header_witness :
    ',' ∉ "9fceb02".toList ∧ ',' ∉ "Ann Lee".toList ∧ ',' ∉ "Mon Jan 1".toList ∧
    parseCommitLog "9fceb02,Ann Lee,Mon Jan 1,fix: a, b, and c".toList =
      .ok [⟨"9fceb02".toList, "Ann Lee".toList, "Mon Jan 1".toList,
        "fix: a, b, and c".toList, []⟩] := by
  have h := (parseLine_header ParseState.init "9fceb02".toList "Ann Lee".toList
    "Mon Jan 1".toList "fix: a, b, and c".toList (by decide) (by decide) (by decide)).1
  refine ⟨by decide, by decide, by decide, ?_⟩
  have hs : Split "9fceb02,Ann Lee,Mon Jan 1,fix: a, b, and c".toList '\n' =
      ["9fceb02".toList ++ ',' :: ("Ann Lee".toList ++ ',' ::
        ("Mon Jan 1".toList ++ ',' :: "fix: a, b, and c".toList))] := by decide
  unfold parseCommitLog
  rw [hs]
  simp only [parseLines, h]
  decide

/-! ### The heap model computes the loop on values -/

theorem onLast_concat {α : Type} (f : α → α) (l : List α) (a : α) :
    onLast f (l ++ [a]) = l ++ [f a] := by
  induction l with
  | nil => rfl
  | cons b l ih =>
    cases l with
    | nil => rfl
    | cons c l =>
      have h : onLast f (b :: c :: (l ++ [a])) = b :: onLast f (c :: (l ++ [a])) := rfl
      simp only [List.cons_append] at ih ⊢
      rw [h, ih]

theorem onLast_length {α : Type} (f : α → α) (l : List α) : (onLast f l).length = l.length := by
  rcases List.eq_nil_or_concat l with h | ⟨l', a, h⟩
  · subst h; rfl
  · rw [h, List.concat_eq_append, onLast_concat]
    simp

theorem Inv_init : ParseState.init.Inv := by
  refine ⟨rfl, ?_, rfl⟩
  intro i c h
  simp [ParseState.init] at h

theorem Inv_files_lt (st : ParseState) (hinv : st.Inv) (c : CommitCell) (hc : c ∈ st.commits) :
    c.Files < st.maps.length := by
  obtain ⟨i, hi⟩ := List.mem_iff_getElem?.mp hc
  have h1 := hinv.2.1 i c (by simpa using hi)
  have h2 : i < st.commits.length := by
    by_contra hlt
    rw [List.getElem?_eq_none (by omega)] at hi
    cases hi
  rw [h1, hinv.1]
  exact h2

theorem readCell_congr (maps maps' : List (GoMap Int)) (cs : List CommitCell)
    (h : ∀ c ∈ cs, maps'.get? c.Files = maps.get? c.Files) :
    cs.map (readCell maps') = cs.map (readCell maps) := by
  apply List.map_congr_left
  intro c hc
  simp only [readCell, h c hc]

theorem parseLine_header_sim (st : ParseState) (hinv : st.Inv) (line : GoString)
    (hc : Contains line ',' = true) :
    (parseLine st line).bind (fun st' => .ok st'.result) = lineValue st.result line ∧
    ∀ st', parseLine st line = .ok st' → st'.Inv := by
  unfold parseLine lineValue headerRecord
  simp only [hc, if_true]
  cases index (SplitN line ',' 4) 0 with
  | commandFailed => exact ⟨rfl, fun _ h => by cases h⟩
  | panic => exact ⟨rfl, fun _ h => by cases h⟩
  | ok hash =>
  cases index (SplitN line ',' 4) 1 with
  | commandFailed => exact ⟨rfl, fun _ h => by cases h⟩
  | panic => exact ⟨rfl, fun _ h => by cases h⟩
  | ok author =>
  cases index (SplitN line ',' 4) 2 with
  | commandFailed => exact ⟨rfl, fun _ h => by cases h⟩
  | panic => exact ⟨rfl, fun _ h => by cases h⟩
  | ok date =>
  cases index (SplitN line ',' 4) 3 with
  | commandFailed => exact ⟨rfl, fun _ h => by cases h⟩
  | panic => exact ⟨rfl, fun _ h => by cases h⟩
  | ok message =>
  simp only [Outcome.bind]
  constructor
  · simp only [ParseState.result, List.map_append, List.map_cons, List.map_nil]
    have h1 : st.commits.map (readCell (st.maps ++ [[]])) = st.commits.map (readCell st.maps) := by
      apply readCell_congr
      intro c hcm
      have hlt := Inv_files_lt st hinv c hcm
      simp only [List.get?_eq_getElem?]
      exact List.getElem?_append_left hlt
    have h2 : readCell (st.maps ++ [[]]) ⟨hash, author, date, message, st.maps.length⟩ =
        ⟨hash, author, date, message, []⟩ := by
      simp [readCell]
    rw [h1, h2]
  · intro st' hst
    cases hst
    refine ⟨by simp [hinv.1], ?_, by simp⟩
    intro i c hi
    simp only [List.get?_eq_getElem?] at hi
    by_cases hlt : i < st.commits.length
    · rw [List.getElem?_append_left hlt] at hi
      exact hinv.2.1 i c (by simpa using hi)
    · have hge : st.commits.length ≤ i := by omega
      rw [List.getElem?_append_right hge] at hi
      have hi0 : i - st.commits.length = 0 := by
        by_contra hne
        have : ([⟨hash, author, date, message, st.maps.length⟩] : List CommitCell)[i - st.commits.length]? = none := by
          apply List.getElem?_eq_none
          simp
          omega
        rw [this] at hi
        cases hi
      rw [hi0] at hi
      simp at hi
      rw [← hi]
      simp only
      rw [hinv.1]
      omega

theorem result_heapSet (st : ParseState) (hinv : st.Inv) (cur : CommitCell)
    (hcur : st.currentCommit = some cur) (file : GoString) :
    st.commits.map (readCell (heapSet st.maps cur.Files file 1)) =
      onLast (addFile file) st.result := by
  have hlast : st.commits.getLast? = some cur := by rw [← hinv.2.2, hcur]
  obtain ⟨ini, hini⟩ := List.getLast?_eq_some_iff.mp hlast
  have haddr : cur.Files = ini.length := by
    apply hinv.2.1 ini.length cur
    rw [hini]
    simp
  have hlen : ini.length < st.maps.length := by
    rw [hinv.1, hini]; simp
  unfold ParseState.result
  rw [hini, List.map_append, List.map_append, List.map_cons, List.map_nil, List.map_cons,
    List.map_nil, onLast_concat]
  have h1 : ini.map (readCell (heapSet st.maps cur.Files file 1)) =
      ini.map (readCell st.maps) := by
    apply readCell_congr
    intro c hc
    obtain ⟨i, hi⟩ := List.mem_iff_getElem?.mp hc
    have hi' : i < ini.length := by
      by_contra hlt
      rw [List.getElem?_eq_none (by omega)] at hi
      cases hi
    have hci : c.Files = i := by
      apply hinv.2.1 i c
      rw [hini]
      simp only [List.get?_eq_getElem?]
      rw [List.getElem?_append_left hi']
      exact hi
    simp only [List.get?_eq_getElem?, heapSet]
    apply List.getElem?_modify_ne
    omega
  have h2 : readCell (heapSet st.maps cur.Files file 1) cur =
      addFile file (readCell st.maps cur) := by
    have hsome : st.maps[ini.length]? = some (st.maps[ini.length]) :=
      List.getElem?_eq_getElem hlen
    simp only [readCell, addFile, heapSet, List.get?_eq_getElem?, haddr,
      List.getElem?_modify_eq, hsome, Option.map_some', Option.getD_some]
    rfl
  rw [h1, h2]

theorem parseLine_stat_sim (st : ParseState) (hinv : st.Inv) (line : GoString)
    (hc : Contains line ',' = false) :
    (parseLine st line).bind (fun st' => .ok st'.result) = lineValue st.result line ∧
    ∀ st', parseLine st line = .ok st' → st'.Inv := by
  unfold parseLine lineValue statFile
  simp only [hc, Bool.false_eq_true, if_false]
  cases hcur : st.currentCommit with
  | none =>
    have hnil : st.commits = [] := by
      have := hinv.2.2
      rw [hcur] at this
      exact List.getLast?_eq_none_iff.mp this.symm
    have hres : st.result = [] := by simp [ParseState.result, hnil]
    constructor
    · simp only [Outcome.bind, hres]
      split <;> rfl
    · intro st' h
      cases h
      exact hinv
  | some cur =>
    by_cases h3 : (Fields line).length = 3
    · have hget : ∃ file, (Fields line).get? 2 = some file := by
        refine ⟨(Fields line)[2], ?_⟩
        simp only [List.get?_eq_getElem?]
        exact List.getElem?_eq_getElem (by omega)
      obtain ⟨file, hfile⟩ := hget
      simp only [h3, if_true, index, hfile, Outcome.bind]
      constructor
      · simp only [ParseState.result]
        rw [result_heapSet st hinv cur hcur file]
        rfl
      · intro st' h
        cases h
        refine ⟨by simp [heapSet, hinv.1], hinv.2.1, ?_⟩
        show some cur = st.commits.getLast?
        rw [← hcur]
        exact hinv.2.2
    · simp only [h3, if_false, Outcome.bind]
      refine ⟨by trivial, ?_⟩
      intro st' h
      cases h
      exact hinv

theorem parseLine_sim (st : ParseState) (hinv : st.Inv) (line : GoString) :
    (parseLine st line).bind (fun st' => .ok st'.result) = lineValue st.result line ∧
    ∀ st', parseLine st line = .ok st' → st'.Inv := by
  cases hc : Contains line ','
  · exact parseLine_stat_sim st hinv line hc
  · exact parseLine_header_sim st hinv line hc

theorem parseLines_sim (lines : List GoString) (st : ParseState) (hinv : st.Inv) :
    (parseLines st lines).bind (fun st' => .ok st'.result) = linesValue st.result lines := by
  induction lines generalizing st with
  | nil => rfl
  | cons line rest ih =>
    have hs := parseLine_sim st hinv line
    simp only [parseLines, linesValue]
    rw [← hs.1]
    cases hp : parseLine st line with
    | commandFailed => rfl
    | panic => rfl
    | ok st' =>
      simp only [Outcome.bind]
      exact ih st' (hs.2 st' hp)

/-- The parser computes the loop on values, started from the empty slice. -/
theorem parseCommitLog_eq (output : GoString) :
    parseCommitLog output = linesValue [] (Split output '\n') :=
  parseLines_sim (Split output '\n') ParseState.init Inv_init


/-! ### Properties of the loop on values -/

theorem bind_eq_ok {α β : Type} (x : Outcome α) (f : α → Outcome β) (b : β) :
    x.bind f = .ok b ↔ ∃ a, x = .ok a ∧ f a = .ok b := by
  cases x with
  | ok a => simp [Outcome.bind]
  | commandFailed => simp [Outcome.bind]
  | panic => simp [Outcome.bind]

theorem headerRecord_files (line : GoString) (r : CommitInfo)
    (h : headerRecord line = .ok r) : r.Files = [] := by
  unfold headerRecord at h
  simp only [bind_eq_ok] at h
  obtain ⟨_, _, _, _, _, _, _, _, h⟩ := h
  cases h
  rfl

theorem lineValue_header (cs cs' : List CommitInfo) (line : GoString)
    (hc : Contains line ',' = true) (h : lineValue cs line = .ok cs') :
    ∃ r, headerRecord line = .ok r ∧ cs' = cs ++ [r] := by
  unfold lineValue at h
  simp only [hc, if_true, bind_eq_ok] at h
  obtain ⟨r, hr, h⟩ := h
  cases h
  exact ⟨r, hr, rfl⟩

theorem lineValue_stat (cs : List CommitInfo) (line : GoString)
    (hc : Contains line ',' = false) :
    lineValue cs line =
      .ok (match statFile line with
        | some file => onLast (addFile file) cs
        | none => cs) := by
  unfold lineValue
  simp only [hc, Bool.false_eq_true, if_false]
  cases statFile line <;> rfl

theorem linesValue_append (a b : List GoString) (cs : List CommitInfo) :
    linesValue cs (a ++ b) = (linesValue cs a).bind fun cs' => linesValue cs' b := by
  induction a generalizing cs with
  | nil => rfl
  | cons l a ih =>
    simp only [List.cons_append, linesValue]
    cases lineValue cs l with
    | ok cs1 => simp only [Outcome.bind]; exact ih cs1
    | commandFailed => rfl
    | panic => rfl

theorem lineValue_length (cs cs' : List CommitInfo) (line : GoString)
    (h : lineValue cs line = .ok cs') :
    cs'.length = cs.length + (if Contains line ',' = true then 1 else 0) := by
  cases hc : Contains line ','
  · rw [lineValue_stat cs line hc] at h
    cases h
    cases statFile line <;> simp [onLast_length]
  · obtain ⟨r, _, hr⟩ := lineValue_header cs cs' line hc h
    simp [hr]

theorem linesValue_length (lines : List GoString) (cs cs' : List CommitInfo)
    (h : linesValue cs lines = .ok cs') :
    cs'.length = cs.length + lines.countP (fun l => Contains l ',') := by
  induction lines generalizing cs with
  | nil =>
    cases h
    simp
  | cons l lines ih =>
    simp only [linesValue, bind_eq_ok] at h
    obtain ⟨cs1, h1, h2⟩ := h
    rw [ih cs1 h2, lineValue_length cs cs1 l h1, List.countP_cons]
    omega

theorem onLast_getElem? {α : Type} (f : α → α) (l : List α) (i : Nat) (hi : i + 1 < l.length) :
    (onLast f l)[i]? = l[i]? := by
  rcases List.eq_nil_or_concat l with h | ⟨l', a, h⟩
  · subst h; rfl
  · rw [h, List.concat_eq_append, onLast_concat]
    have hl : i < l'.length := by
      rw [h] at hi
      simp at hi
      omega
    rw [List.getElem?_append_left hl, List.getElem?_append_left hl]

theorem lineValue_stable (cs cs' : List CommitInfo) (line : GoString)
    (h : lineValue cs line = .ok cs') (i : Nat) (hi : i + 1 < cs.length) :
    cs'[i]? = cs[i]? := by
  cases hc : Contains line ','
  · rw [lineValue_stat cs line hc] at h
    cases h
    cases statFile line with
    | none => rfl
    | some file => exact onLast_getElem? _ cs i hi
  · obtain ⟨r, _, hr⟩ := lineValue_header cs cs' line hc h
    rw [hr]
    exact List.getElem?_append_left (by omega)

/-- Only the last record is ever written to: the others stay as they are. -/
theorem linesValue_stable (lines : List GoString) (cs cs' : List CommitInfo)
    (h : linesValue cs lines = .ok cs') (i : Nat) (hi : i + 1 < cs.length) :
    cs'[i]? = cs[i]? := by
  induction lines generalizing cs with
  | nil =>
    cases h
    rfl
  | cons l lines ih =>
    simp only [linesValue, bind_eq_ok] at h
    obtain ⟨cs1, h1, h2⟩ := h
    have hlen := lineValue_length cs cs1 l h1
    rw [ih cs1 h2 (by omega), lineValue_stable cs cs1 l h1 i hi]

theorem statFile_iff (line path : GoString) :
    statFile line = some path ↔ ∃ x y, Fields line = [x, y, path] := by
  unfold statFile
  constructor
  · intro h
    by_cases h3 : (Fields line).length = 3
    · simp only [h3, if_true] at h
      match hf : Fields line, h3 with
      | [x, y, z], _ =>
        rw [hf] at h
        simp at h
        exact ⟨x, y, by rw [h]⟩
    · simp [h3] at h
  · rintro ⟨x, y, h⟩
    simp [h]

/-- A block of stat lines only adds their paths to the last record. -/
theorem linesValue_block (blk : List GoString) (hblk : ∀ l ∈ blk, Contains l ',' = false)
    (cs : List CommitInfo) (c : CommitInfo) :
    ∃ c', linesValue (cs ++ [c]) blk = .ok (cs ++ [c']) ∧
      c'.Hash = c.Hash ∧ c'.Author = c.Author ∧ c'.Date = c.Date ∧
      c'.Message = c.Message ∧
      (∀ p, p ∈ mapKeys c'.Files ↔ (p ∈ mapKeys c.Files ∨ ∃ l ∈ blk, statFile l = some p)) ∧
      ((mapKeys c.Files).Nodup → (mapKeys c'.Files).Nodup) := by
  induction blk generalizing c with
  | nil => exact ⟨c, rfl, rfl, rfl, rfl, rfl, by simp, id⟩
  | cons l blk ih =>
    have hl : Contains l ',' = false := hblk l (List.mem_cons_self _ _)
    have hblk' : ∀ l ∈ blk, Contains l ',' = false :=
      fun x hx => hblk x (List.mem_cons_of_mem _ hx)
    simp only [linesValue, lineValue_stat (cs ++ [c]) l hl, Outcome.bind]
    cases hs : statFile l with
    | none =>
      obtain ⟨c', h1, h2, h3, h4, h5, h6, h7⟩ := ih hblk' c
      refine ⟨c', h1, h2, h3, h4, h5, ?_, h7⟩
      intro p
      rw [h6 p]
      constructor
      · rintro (h | ⟨x, hx, hxp⟩)
        · exact Or.inl h
        · exact Or.inr ⟨x, List.mem_cons_of_mem _ hx, hxp⟩
      · rintro (h | ⟨x, hx, hxp⟩)
        · exact Or.inl h
        · rcases List.mem_cons.mp hx with e | e
          · rw [e, hs] at hxp
            cases hxp
          · exact Or.inr ⟨x, e, hxp⟩
    | some file =>
      simp only [onLast_concat]
      obtain ⟨c', h1, h2, h3, h4, h5, h6, h7⟩ := ih hblk' (addFile file c)
      refine ⟨c', h1, h2, h3, h4, h5, ?_, ?_⟩
      · intro p
        rw [h6 p]
        simp only [addFile, mapKeys_mapSet]
        constructor
        · rintro ((h | h) | ⟨x, hx, hxp⟩)
          · exact Or.inr ⟨l, List.mem_cons_self _ _, by rw [hs, h]⟩
          · exact Or.inl h
          · exact Or.inr ⟨x, List.mem_cons_of_mem _ hx, hxp⟩
        · rintro (h | ⟨x, hx, hxp⟩)
          · exact Or.inl (Or.inr h)
          · rcases List.mem_cons.mp hx with e | e
            · rw [e, hs] at hxp
              cases hxp
              exact Or.inl (Or.inl rfl)
            · exact Or.inr ⟨x, e, hxp⟩
      · intro hnd
        exact h7 (mapKeys_nodup_mapSet c.Files file 1 hnd)

/-- C8: when the parser returns, it returns one record per header line, and for a
header line followed by the block `blk` of comma-free lines (up to the next header
line or the end of the text), the record of that header, as read in the returned
slice, has as file set exactly the third tokens of the lines of `blk` that split on
white space into exactly three tokens; its keys are pairwise distinct. -/
theorem parseCommitLog_files (output : GoString) (commits : List CommitInfo)
    (hret : parseCommitLog output = .ok commits)
    (pre blk post : List GoString) (hdr : GoString)
    (hsplit : Split output '\n' = pre ++ hdr :: (blk ++ post))
    (hhdr : Contains hdr ',' = true)
    (hblk : ∀ l ∈ blk, Contains l ',' = false)
    (hpost : ∀ l, post.head? = some l → Contains l ',' = true) :
    commits.length = (Split output '\n').countP (fun l => Contains l ',') ∧
    ∃ c, commits.get? (pre.countP (fun l => Contains l ',')) = some c ∧
      headerRecord hdr = .ok ⟨c.Hash, c.Author, c.Date, c.Message, []⟩ ∧
      (mapKeys c.Files).Nodup ∧
      ∀ path, path ∈ mapKeys c.Files ↔ ∃ l ∈ blk, ∃ x y, Fields l = [x, y, path] := by
  rw [parseCommitLog_eq] at hret
  have hlen := linesValue_length _ _ _ hret
  refine ⟨by simpa using hlen, ?_⟩
  rw [hsplit, linesValue_append, bind_eq_ok] at hret
  obtain ⟨cs1, hpre, hrest⟩ := hret
  have hlen1 : cs1.length = pre.countP (fun l => Contains l ',') := by
    simpa using linesValue_length _ _ _ hpre
  simp only [linesValue, bind_eq_ok] at hrest
  obtain ⟨cs2, hhead, hrest⟩ := hrest
  obtain ⟨r, hr, hcs2⟩ := lineValue_header cs1 cs2 hdr hhdr hhead
  have hrf := headerRecord_files hdr r hr
  rw [hcs2, linesValue_append, bind_eq_ok] at hrest
  obtain ⟨cs3, hb, hrest⟩ := hrest
  obtain ⟨c, hc, h1, h2, h3, h4, hkeys, hnd⟩ := linesValue_block blk hblk cs1 r
  rw [hc] at hb
  cases hb
  have hrec : headerRecord hdr = .ok ⟨c.Hash, c.Author, c.Date, c.Message, []⟩ := by
    rw [hr, h1, h2, h3, h4, ← hrf]
  have hfiles : ∀ path, path ∈ mapKeys c.Files ↔
      ∃ l ∈ blk, ∃ x y, Fields l = [x, y, path] := by
    intro path
    rw [hkeys path, hrf]
    simp only [mapKeys_nil, List.not_mem_nil, false_or, statFile_iff]
  have hndc : (mapKeys c.Files).Nodup := hnd (by rw [hrf]; exact List.nodup_nil)
  refine ⟨c, ?_, hrec, hndc, hfiles⟩
  rw [← hlen1]
  simp only [List.get?_eq_getElem?]
  cases post with
  | nil =>
    simp only [linesValue] at hrest
    cases hrest
    simp
  | cons h t =>
    have hh : Contains h ',' = true := hpost h rfl
    simp only [linesValue, bind_eq_ok] at hrest
    obtain ⟨cs4, h4a, h4b⟩ := hrest
    obtain ⟨r2, _, hcs4⟩ := lineValue_header _ cs4 h hh h4a
    rw [linesValue_stable t cs4 commits h4b cs1.length (by rw [hcs4]; simp), hcs4,
      List.append_assoc, List.getElem?_append_right (Nat.le_refl _)]
    simp

/-- Instance: a log with two commits; the first has a blank line in its block. -/
theorem parseCommitLog_files_witness :
    parseCommitLog "a1,ann,Mon,one\n1\t2\tx.go\n\n-\t-\timg.png\nb2,bob,Tue,two\n3\t0\ty.go".toList =
      .ok [⟨"a1".toList, "ann".toList, "Mon".toList, "one".toList,
            [("x.go".toList, 1), ("img.png".toList, 1)]⟩,
           ⟨"b2".toList, "bob".toList, "Tue".toList, "two".toList, [("y.go".toList, 1)]⟩] ∧
    ∃ c, ([⟨"a1".toList, "ann".toList, "Mon".toList, "one".toList,
            [("x.go".toList, 1), ("img.png".toList, 1)]⟩,
           ⟨"b2".toList, "bob".toList, "Tue".toList, "two".toList,
            [("y.go".toList, 1)]⟩] : List CommitInfo).get? 0 = some c ∧
      ∀ path, path ∈ mapKeys c.Files ↔
        ∃ l ∈ ["1\t2\tx.go".toList, [], "-\t-\timg.png".toList],
          ∃ x y, Fields l = [x, y, path] := by
  have hret : parseCommitLog
      "a1,ann,Mon,one\n1\t2\tx.go\n\n-\t-\timg.png\nb2,bob,Tue,two\n3\t0\ty.go".toList =
      .ok [⟨"a1".toList, "ann".toList, "Mon".toList, "one".toList,
            [("x.go".toList, 1), ("img.png".toList, 1)]⟩,
           ⟨"b2".toList, "bob".toList, "Tue".toList, "two".toList,
            [("y.go".toList, 1)]⟩] := by decide
  obtain ⟨c, hc, -, -, hfiles⟩ := (parseCommitLog_files _ _ hret []
    ["1\t2\tx.go".toList, [], "-\t-\timg.png".toList]
    ["b2,bob,Tue,two".toList, "3\t0\ty.go".toList] "a1,ann,Mon,one".toList
    (by decide) (by decide) (by decide) (by decide)).2
  exact ⟨hret, c, hc, hfiles⟩


/-! ## The merge scan as a whole -/

theorem genSplit_ne_nil (sep : Char) (k : Nat) (s : GoString) : genSplit sep k s ≠ [] := by
  cases k with
  | zero => simp [genSplit]
  | succ k =>
    unfold genSplit
    cases cutAt sep s with
    | none => simp
    | some p => simp

theorem getChangedFiles_eq (src : HistorySource) (commitHash : GoString) :
    getChangedFiles src commitHash = .ok (changedFiles src commitHash) := by
  unfold getChangedFiles changedFiles
  cases src (diffTreeCommand commitHash) with
  | none => rfl
  | some out =>
    have hne : Split out '\n' ≠ [] := genSplit_ne_nil _ _ _
    have hlen : (Split out '\n').length ≠ 0 := fun h => hne (List.eq_nil_of_length_eq_zero h)
    simp only [hlen, if_false, List.dropLast_eq_take]

theorem splitN_two (line : GoString) :
    SplitN line ' ' 2 = [line] ∨ ∃ h m, SplitN line ' ' 2 = [h, m] := by
  unfold SplitN
  simp only [show ¬ (2 = 0) by decide, if_false, genSplit]
  cases cutAt ' ' line with
  | none => exact Or.inl rfl
  | some p => exact Or.inr ⟨p.1, p.2, rfl⟩

theorem mergeLine_eq (src : HistorySource) (acc : List MergeCommit) (line : GoString) :
    mergeLine src acc line = .ok (acc ++ (conflictMerge src line).toList) := by
  unfold mergeLine conflictMerge
  rcases splitN_two line with h | ⟨h, m, hs⟩
  · simp [h]
  · simp only [hs]
    by_cases hm : isMergeConflict m = true
    · simp [index, Outcome.bind, hm, getChangedFiles_eq]
    · simp [index, Outcome.bind, hm]

theorem mergeLines_eq (src : HistorySource) (lines : List GoString) (acc : List MergeCommit) :
    mergeLines src acc lines = .ok (acc ++ lines.filterMap (conflictMerge src)) := by
  induction lines generalizing acc with
  | nil => simp [mergeLines]
  | cons line rest ih =>
    simp only [mergeLines, mergeLine_eq, Outcome.bind, ih]
    cases hc : conflictMerge src line <;> simp [List.filterMap_cons, hc]

theorem findMergeConflicts_eq (src : HistorySource) :
    findMergeConflicts src =
      .ok (match src mergeLogCommand with
        | none => []
        | some out => (Split out '\n').filterMap (conflictMerge src)) := by
  unfold findMergeConflicts
  cases src mergeLogCommand with
  | none => rfl
  | some out => simp [mergeLines_eq]

/-- C18: whatever the diff query prints, getChangedFiles returns the newline-split
of it without its last element and does not panic: empty output gives no file, and
for the output "a.go\nb.go", which does not end in a newline, the last path b.go is
left out. -/
theorem getChangedFiles_dropLast (src : HistorySource) (commitHash out : GoString)
    (hout : src (diffTreeCommand commitHash) = some out) :
    getChangedFiles src commitHash = .ok (Split out '\n').dropLast ∧
    getChangedFiles (sourceOf [] "abc".toList []) "abc".toList = .ok [] ∧
    getChangedFiles (sourceOf [] "abc".toList "a.go\nb.go".toList) "abc".toList =
      .ok ["a.go".toList] := by
  refine ⟨?_, by decide, by decide⟩
  rw [getChangedFiles_eq]
  simp only [changedFiles, hout]

/-- Instance: a diff output whose last line is not terminated. -/
theorem getChangedFiles_dropLast_witness :
    sourceOf [] "f00".toList "x.go\ny.go\nz.go".toList (diffTreeCommand "f00".toList) =
      some "x.go\ny.go\nz.go".toList ∧
    getChangedFiles (sourceOf [] "f00".toList "x.go\ny.go\nz.go".toList) "f00".toList =
      .ok ["x.go".toList, "y.go".toList] :=
  ⟨by decide,
    (getChangedFiles_dropLast (sourceOf [] "f00".toList "x.go\ny.go\nz.go".toList)
      "f00".toList "x.go\ny.go\nz.go".toList (by decide)).1.trans (by decide)⟩

/-- C11: findMergeConflicts returns, in the order of the lines of the merge log,
one record for each line that splits into a hash and a conflict-bearing message,
with that hash and message, and nothing for the other lines; DetectBottlenecks
prints every one of these records in its merge section, whatever the commits. -/
theorem findMergeConflicts_spec (src : HistorySource) (out : GoString)
    (hout : src mergeLogCommand = some out)
    (order : RangeOrder) (commits : List CommitInfo) :
    findMergeConflicts src = .ok ((Split out '\n').filterMap (conflictMerge src)) ∧
    (∀ line h m, SplitN line ' ' 2 = [h, m] → isMergeConflict m = true →
      ∃ files, conflictMerge src line = some ⟨h, m, files⟩) ∧
    (∀ line, (¬ ∃ h m, SplitN line ' ' 2 = [h, m] ∧ isMergeConflict m = true) →
      conflictMerge src line = none) ∧
    DetectBottlenecks src order commits =
      .ok (fileSection order commits ++ authorSection order commits ++
        Printed.heading "\nPotential bottlenecks caused by frequent rollbacks:".toList ::
          ((Split out '\n').filterMap (conflictMerge src)).map
            fun m => Printed.merge m.CommitHash m.Message m.Files) := by
  have hfind : findMergeConflicts src =
      .ok ((Split out '\n').filterMap (conflictMerge src)) := by
    rw [findMergeConflicts_eq, hout]
  refine ⟨hfind, ?_, ?_, ?_⟩
  · intro line h m hs hm
    exact ⟨changedFiles src h, by simp [conflictMerge, hs, hm]⟩
  · intro line hno
    unfold conflictMerge
    rcases splitN_two line with h | ⟨h, m, hs⟩
    · simp [h]
    · simp only [hs]
      have : ¬ isMergeConflict m = true := fun hm => hno ⟨h, m, hs, hm⟩
      simp [this]
  · unfold DetectBottlenecks
    rw [hfind]
    rfl

/-- Instance: a merge log of three lines, two of them conflict-bearing. -/
theorem findMergeConflicts_spec_witness :
    sourceOf "a1 Merge: conflict fixed\nb2 Merge branch dev\nc3 CONFLICTS".toList
        "c3".toList "x.go\n".toList mergeLogCommand =
      some "a1 Merge: conflict fixed\nb2 Merge branch dev\nc3 CONFLICTS".toList ∧
    findMergeConflicts
        (sourceOf "a1 Merge: conflict fixed\nb2 Merge branch dev\nc3 CONFLICTS".toList
          "c3".toList "x.go\n".toList) =
      .ok [⟨"a1".toList, "Merge: conflict fixed".toList, []⟩,
           ⟨"c3".toList, "CONFLICTS".toList, ["x.go".toList]⟩] :=
  ⟨by decide,
    (findMergeConflicts_spec
      (sourceOf "a1 Merge: conflict fixed\nb2 Merge branch dev\nc3 CONFLICTS".toList
        "c3".toList "x.go\n".toList)
      "a1 Merge: conflict fixed\nb2 Merge branch dev\nc3 CONFLICTS".toList
      (by decide) id []).1.trans (by decide)⟩


theorem diffTreeCommand_inj (h h' : GoString) :
    diffTreeCommand h = diffTreeCommand h' ↔ h = h' := by
  constructor
  · intro e
    simpa [diffTreeCommand] using e
  · intro e
    rw [e]

theorem mergeLog_ne_diffTree (h : GoString) : mergeLogCommand ≠ diffTreeCommand h := by
  intro e
  have := congrArg List.length e
  simp [mergeLogCommand, diffTreeCommand] at this

theorem mergeLineQueries_eq (src : HistorySource) (line : GoString) :
    mergeLineQueries line =
      (conflictMerge src line).toList.map fun m => diffTreeCommand m.CommitHash := by
  unfold mergeLineQueries conflictMerge
  rcases splitN_two line with h | ⟨h, m, hs⟩
  · simp [h]
  · simp only [hs]
    by_cases hm : isMergeConflict m = true <;> simp [hm]

theorem mergeQueries_eq (src : HistorySource) (lines : List GoString) :
    lines.flatMap mergeLineQueries =
      (lines.filterMap (conflictMerge src)).map fun m => diffTreeCommand m.CommitHash := by
  induction lines with
  | nil => rfl
  | cons line rest ih =>
    rw [List.flatMap_cons, ih, mergeLineQueries_eq src line]
    cases hc : conflictMerge src line <;> simp [List.filterMap_cons, hc]

/-- The record that a failed diff query leaves: same hash and message, no files. -/
theorem conflictMerge_failed (src src' : HistorySource) (h0 : GoString)
    (hfail : src (diffTreeCommand h0) = none)
    (hsame : ∀ argv, argv ≠ diffTreeCommand h0 → src argv = src' argv) (line : GoString) :
    conflictMerge src line =
      (conflictMerge src' line).map fun m =>
        if m.CommitHash = h0 then ⟨m.CommitHash, m.Message, []⟩ else m := by
  unfold conflictMerge
  rcases splitN_two line with h | ⟨h, m, hs⟩
  · simp [h]
  · simp only [hs]
    by_cases hm : isMergeConflict m = true
    · simp only [hm, if_true, Option.map_some', Option.some.injEq]
      by_cases hh : h = h0
      · subst hh
        simp [changedFiles, hfail]
      · have hne : diffTreeCommand h ≠ diffTreeCommand h0 :=
          fun e => hh ((diffTreeCommand_inj h h0).mp e)
        simp [changedFiles, hh, hsame _ hne]
    · simp [hm]

theorem conflictMerge_files (src : HistorySource) (line : GoString) (mc : MergeCommit)
    (h : conflictMerge src line = some mc) : mc.Files = changedFiles src mc.CommitHash := by
  unfold conflictMerge at h
  rcases splitN_two line with hs | ⟨x, y, hs⟩
  · simp [hs] at h
  · simp only [hs] at h
    by_cases hm : isMergeConflict y = true
    · simp only [hm, if_true, Option.some.injEq] at h
      rw [← h]
    · simp [hm] at h

/-- C16: let a line of the merge log split into the hash `h0` and a conflict-bearing
message `m`, and let the diff query of `h0` fail.  Then findMergeConflicts still
returns; its result has one record per conflict-bearing line, among them the record
of `h0` and `m` with an empty file list, and no record of `h0` has a file; compared
with a history source that differs only in answering that query, every record of
another commit is the same. -/
theorem findMergeConflicts_diff_failure (src src' : HistorySource)
    (out line h0 m : GoString)
    (hlog : src mergeLogCommand = some out)
    (hline : line ∈ Split out '\n')
    (hsplit : SplitN line ' ' 2 = [h0, m])
    (hconf : isMergeConflict m = true)
    (hfail : src (diffTreeCommand h0) = none)
    (hsame : ∀ argv, argv ≠ diffTreeCommand h0 → src argv = src' argv) :
    getChangedFiles src h0 = .ok [] ∧
    conflictMerge src line = some ⟨h0, m, []⟩ ∧
    ∃ merges merges',
      findMergeConflicts src = .ok merges ∧
      merges = (Split out '\n').filterMap (conflictMerge src) ∧
      (⟨h0, m, []⟩ : MergeCommit) ∈ merges ∧
      (∀ mc ∈ merges, mc.CommitHash = h0 → mc.Files = []) ∧
      findMergeConflicts src' = .ok merges' ∧
      merges.length = merges'.length ∧
      merges = merges'.map (fun mc =>
        if mc.CommitHash = h0 then ⟨mc.CommitHash, mc.Message, []⟩ else mc) := by
  have hcf : changedFiles src h0 = [] := by simp [changedFiles, hfail]
  have hcm : conflictMerge src line = some ⟨h0, m, []⟩ := by
    simp [conflictMerge, hsplit, hconf, hcf]
  have hres : findMergeConflicts src =
      .ok ((Split out '\n').filterMap (conflictMerge src)) := by
    rw [findMergeConflicts_eq, hlog]
  have hlog' : src' mergeLogCommand = some out := by
    rw [← hsame _ (mergeLog_ne_diffTree h0)]
    exact hlog
  have hres' : findMergeConflicts src' =
      .ok ((Split out '\n').filterMap (conflictMerge src')) := by
    rw [findMergeConflicts_eq, hlog']
  have hmap : (Split out '\n').filterMap (conflictMerge src) =
      ((Split out '\n').filterMap (conflictMerge src')).map (fun mc =>
        if mc.CommitHash = h0 then ⟨mc.CommitHash, mc.Message, []⟩ else mc) := by
    rw [List.map_filterMap]
    apply List.filterMap_congr
    intro l _
    exact conflictMerge_failed src src' h0 hfail hsame l
  refine ⟨by rw [getChangedFiles_eq, hcf], hcm, _, _, hres, rfl, ?_, ?_, hres', ?_, hmap⟩
  · exact List.mem_filterMap.mpr ⟨line, hline, hcm⟩
  · intro mc hmc hh
    obtain ⟨l, _, hl⟩ := List.mem_filterMap.mp hmc
    rw [conflictMerge_files src l mc hl, hh, hcf]
  · rw [hmap, List.length_map]

/-- Instance: two conflict merges; the diff query of the first one fails. -/
theorem findMergeConflicts_diff_failure_witness :
    sourceOf "a1 conflict one\nb2 conflict two".toList "b2".toList "x.go\n".toList
        mergeLogCommand = some "a1 conflict one\nb2 conflict two".toList ∧
    "a1 conflict one".toList ∈ Split "a1 conflict one\nb2 conflict two".toList '\n' ∧
    SplitN "a1 conflict one".toList ' ' 2 = ["a1".toList, "conflict one".toList] ∧
    isMergeConflict "conflict one".toList = true ∧
    sourceOf "a1 conflict one\nb2 conflict two".toList "b2".toList "x.go\n".toList
        (diffTreeCommand "a1".toList) = none ∧
    (∃ merges merges',
      findMergeConflicts
          (sourceOf "a1 conflict one\nb2 conflict two".toList "b2".toList
            "x.go\n".toList) = .ok merges ∧
      merges = (Split "a1 conflict one\nb2 conflict two".toList '\n').filterMap
        (conflictMerge (sourceOf "a1 conflict one\nb2 conflict two".toList "b2".toList
          "x.go\n".toList)) ∧
      (⟨"a1".toList, "conflict one".toList, []⟩ : MergeCommit) ∈ merges ∧
      (∀ mc ∈ merges, mc.CommitHash = "a1".toList → mc.Files = []) ∧
      findMergeConflicts (fun argv =>
          if argv = diffTreeCommand "a1".toList then some "y.go\n".toList
          else sourceOf "a1 conflict one\nb2 conflict two".toList "b2".toList
            "x.go\n".toList argv) = .ok merges' ∧
      merges.length = merges'.length ∧
      merges = merges'.map (fun mc =>
        if mc.CommitHash = "a1".toList then ⟨mc.CommitHash, mc.Message, []⟩ else mc)) ∧
    findMergeConflicts
        (sourceOf "a1 conflict one\nb2 conflict two".toList "b2".toList "x.go\n".toList) =
      .ok [⟨"a1".toList, "conflict one".toList, []⟩,
           ⟨"b2".toList, "conflict two".toList, ["x.go".toList]⟩] ∧
    findMergeConflicts (fun argv =>
        if argv = diffTreeCommand "a1".toList then some "y.go\n".toList
        else sourceOf "a1 conflict one\nb2 conflict two".toList "b2".toList
          "x.go\n".toList argv) =
      .ok [⟨"a1".toList, "conflict one".toList, ["y.go".toList]⟩,
           ⟨"b2".toList, "conflict two".toList, ["x.go".toList]⟩] :=
  ⟨by decide, by decide, by decide, by decide, by decide,
    (findMergeConflicts_diff_failure
      (sourceOf "a1 conflict one\nb2 conflict two".toList "b2".toList "x.go\n".toList)
      (fun argv =>
          if argv = diffTreeCommand "a1".toList then some "y.go\n".toList
          else sourceOf "a1 conflict one\nb2 conflict two".toList "b2".toList
            "x.go\n".toList argv)
      "a1 conflict one\nb2 conflict two".toList "a1 conflict one".toList
      "a1".toList "conflict one".toList
      (by decide) (by decide) (by decide) (by decide) (by decide)
      (fun argv hne => (if_neg hne).symm)).2.2,
    by decide, by decide⟩

/-- C20: findMergeConflicts takes neither the commits nor a repository path: every
command it runs is the merge-log query or a diff query, none of which carries the
`-C <repoPath>` arguments of the log query of getCommitHistory; two runs of
DetectBottlenecks whose history sources answer these queries alike run the same
merge queries and print the same merge section, whatever their commits are. -/
theorem mergeSection_independent (src src' : HistorySource) (order order' : RangeOrder)
    (commits commits' : List CommitInfo)
    (hlog : src mergeLogCommand = src' mergeLogCommand)
    (hdiff : ∀ h, src (diffTreeCommand h) = src' (diffTreeCommand h)) :
    mergeQueries src = mergeQueries src' ∧
    (∃ merges,
      findMergeConflicts src = .ok merges ∧ findMergeConflicts src' = .ok merges ∧
      mergeQueries src = mergeLogCommand :: merges.map (fun m => diffTreeCommand m.CommitHash) ∧
      DetectBottlenecks src order commits =
        .ok (fileSection order commits ++ authorSection order commits ++
          mergeSection merges) ∧
      DetectBottlenecks src' order' commits' =
        .ok (fileSection order' commits' ++ authorSection order' commits' ++
          mergeSection merges)) ∧
    (∀ q ∈ mergeQueries src, q.get? 1 ≠ some "-C".toList) ∧
    (∀ repoPath, (logCommand repoPath).get? 1 = some "-C".toList ∧
      (logCommand repoPath).get? 2 = some repoPath) := by
  have hq : mergeQueries src = mergeQueries src' := by
    unfold mergeQueries
    rw [hlog]
  have hcm : ∀ line, conflictMerge src line = conflictMerge src' line := by
    intro line
    unfold conflictMerge changedFiles
    simp only [hdiff]
  have hfm : findMergeConflicts src = findMergeConflicts src' := by
    rw [findMergeConflicts_eq src, findMergeConflicts_eq src', hlog]
    cases src' mergeLogCommand with
    | none => rfl
    | some out =>
      simp only [Outcome.ok.injEq]
      apply List.filterMap_congr
      intro line _
      exact hcm line
  have htrace : ∀ s : HistorySource, mergeQueries s =
      mergeLogCommand :: (match s mergeLogCommand with
        | none => []
        | some out => (Split out '\n').filterMap (conflictMerge s)).map
          (fun m : MergeCommit => diffTreeCommand m.CommitHash) := by
    intro s
    unfold mergeQueries
    cases s mergeLogCommand with
    | none => rfl
    | some out => simp only [mergeQueries_eq s]
  refine ⟨hq, ⟨_, findMergeConflicts_eq src, ?_, htrace src, ?_, ?_⟩, ?_, ?_⟩
  · rw [← hfm]
    exact findMergeConflicts_eq src
  · unfold DetectBottlenecks
    rw [findMergeConflicts_eq src]
    rfl
  · unfold DetectBottlenecks
    rw [← hfm, findMergeConflicts_eq src]
    rfl
  · intro q hqm
    rw [htrace src] at hqm
    rcases List.mem_cons.mp hqm with e | e
    · rw [e]
      decide
    · obtain ⟨m, _, hm⟩ := List.mem_map.mp e
      rw [← hm]
      simp [diffTreeCommand]
  · intro repoPath
    simp [logCommand]

/-- Instance: two runs on different commits and sources that differ on the log
query of getCommitHistory only. -/
theorem mergeSection_independent_witness :
    mergeQueries (sourceOf "a1 conflict".toList "a1".toList "x.go\n".toList) =
      mergeQueries (fun argv =>
        if argv = logCommand "/repo".toList then some "h,a,d,m".toList
        else sourceOf "a1 conflict".toList "a1".toList "x.go\n".toList argv) ∧
    mergeQueries (sourceOf "a1 conflict".toList "a1".toList "x.go\n".toList) =
      [mergeLogCommand, diffTreeCommand "a1".toList] :=
  ⟨(mergeSection_independent
      (sourceOf "a1 conflict".toList "a1".toList "x.go\n".toList)
      (fun argv =>
        if argv = logCommand "/repo".toList then some "h,a,d,m".toList
        else sourceOf "a1 conflict".toList "a1".toList "x.go\n".toList argv)
      id List.reverse [] [⟨"h".toList, "a".toList, "d".toList, "m".toList, []⟩]
      (by decide) (by intro h; simp [logCommand, diffTreeCommand])).1,
    by decide⟩


/-! ### Header lines: fields, panics -/

theorem cutAt_of_mem (sep : Char) (s : GoString) (h : sep ∈ s) :
    ∃ b a, cutAt sep s = some (b, a) ∧ s = b ++ sep :: a ∧ sep ∉ b := by
  induction s with
  | nil => simp at h
  | cons c cs ih =>
    by_cases hc : c = sep
    · subst hc
      exact ⟨[], cs, by simp [cutAt], rfl, by simp⟩
    · have hmem : sep ∈ cs := by
        rcases List.mem_cons.mp h with e | e
        · exact absurd e.symm hc
        · exact e
      obtain ⟨b, a, h1, h2, h3⟩ := ih hmem
      refine ⟨c :: b, a, by simp [cutAt, hc, h1], by simp [h2], ?_⟩
      intro hm
      rcases List.mem_cons.mp hm with e | e
      · exact hc e.symm
      · exact h3 e

theorem count_eq_zero_of_not_mem (sep : Char) (s : GoString) (h : sep ∉ s) : Count s sep = 0 :=
  List.count_eq_zero_of_not_mem h

theorem count_cut (sep : Char) (b a : GoString) (hb : sep ∉ b) :
    Count (b ++ sep :: a) sep = Count a sep + 1 := by
  unfold Count
  rw [List.count_append, List.count_cons_self, List.count_eq_zero_of_not_mem hb]
  omega

theorem mem_of_count_pos (sep : Char) (s : GoString) (h : 0 < Count s sep) : sep ∈ s := by
  by_contra hn
  rw [count_eq_zero_of_not_mem sep s hn] at h
  exact Nat.lt_irrefl 0 h

theorem firstField_cut (b a : GoString) (hb : ',' ∉ b) : firstField (b ++ ',' :: a) = b := by
  unfold firstField
  induction b with
  | nil => simp
  | cons c cs ih =>
    have hc : ¬ c = ',' := fun e => hb (by simp [e])
    have hcs : ',' ∉ cs := fun e => hb (List.mem_cons_of_mem _ e)
    simp [List.takeWhile_cons, hc, ih hcs]

theorem genSplit_length (sep : Char) (k : Nat) (s : GoString) :
    (genSplit sep k s).length = min k (Count s sep) + 1 := by
  induction k generalizing s with
  | zero => simp [genSplit]
  | succ k ih =>
    by_cases hm : sep ∈ s
    · obtain ⟨b, a, h1, h2, h3⟩ := cutAt_of_mem sep s hm
      simp only [genSplit, h1, List.length_cons, ih a]
      rw [h2, count_cut sep b a h3]
      omega
    · rw [genSplit_of_not_mem sep _ s hm, count_eq_zero_of_not_mem sep s hm]
      simp

/-- A line with at least three commas is `h,a,d,m` with comma-free `h`, `a`, `d`. -/
theorem header_shape (line : GoString) (h3 : 3 ≤ Count line ',') :
    ∃ h a d m, ',' ∉ h ∧ ',' ∉ a ∧ ',' ∉ d ∧
      line = h ++ ',' :: (a ++ ',' :: (d ++ ',' :: m)) := by
  obtain ⟨h, r1, -, e1, n1⟩ := cutAt_of_mem ',' line (mem_of_count_pos _ _ (by omega))
  have c1 : 2 ≤ Count r1 ',' := by
    rw [e1, count_cut ',' h r1 n1] at h3
    omega
  obtain ⟨a, r2, -, e2, n2⟩ := cutAt_of_mem ',' r1 (mem_of_count_pos _ _ (by omega))
  have c2 : 1 ≤ Count r2 ',' := by
    rw [e2, count_cut ',' a r2 n2] at c1
    omega
  obtain ⟨d, m, -, e3, n3⟩ := cutAt_of_mem ',' r2 (mem_of_count_pos _ _ (by omega))
  exact ⟨h, a, d, m, n1, n2, n3, by rw [e1, e2, e3]⟩

theorem headerRecord_of_shape (h a d m : GoString)
    (hh : ',' ∉ h) (ha : ',' ∉ a) (hd : ',' ∉ d) :
    headerRecord (h ++ ',' :: (a ++ ',' :: (d ++ ',' :: m))) = .ok ⟨h, a, d, m, []⟩ := by
  unfold headerRecord
  simp only [splitN_header h a d m hh ha hd]
  simp [index, Outcome.bind]

theorem headerRecord_ok (line : GoString) (h3 : 3 ≤ Count line ',') :
    ∃ r, headerRecord line = .ok r ∧ r.Hash = firstField line ∧ r.Files = [] := by
  obtain ⟨h, a, d, m, hh, ha, hd, e⟩ := header_shape line h3
  refine ⟨⟨h, a, d, m, []⟩, ?_, ?_, rfl⟩
  · rw [e]
    exact headerRecord_of_shape h a d m hh ha hd
  · rw [e, firstField_cut h _ hh]

theorem index_cases {α : Type} (a : List α) (i : Nat) :
    (index a i = .panic ∧ a.length ≤ i) ∨ ∃ x, index a i = .ok x ∧ i < a.length := by
  unfold index
  by_cases hi : i < a.length
  · right
    refine ⟨a[i], ?_, hi⟩
    simp [List.getElem?_eq_getElem hi]
  · left
    have : a.get? i = none := by
      simp only [List.get?_eq_getElem?]
      exact List.getElem?_eq_none (by omega)
    simp only [this]
    exact ⟨trivial, by omega⟩

theorem headerRecord_panic (line : GoString) (h3 : Count line ',' < 3) :
    headerRecord line = .panic := by
  have hlen : (SplitN line ',' 4).length < 4 := by
    unfold SplitN
    simp only [show ¬ (4 = 0) by decide, if_false]
    rw [genSplit_length]
    omega
  unfold headerRecord
  rcases index_cases (SplitN line ',' 4) 0 with ⟨h0, _⟩ | ⟨x0, h0, _⟩
  · simp only [h0, Outcome.bind]
  rcases index_cases (SplitN line ',' 4) 1 with ⟨h1, _⟩ | ⟨x1, h1, _⟩
  · simp only [h0, h1, Outcome.bind]
  rcases index_cases (SplitN line ',' 4) 2 with ⟨h2, _⟩ | ⟨x2, h2, _⟩
  · simp only [h0, h1, h2, Outcome.bind]
  rcases index_cases (SplitN line ',' 4) 3 with ⟨h3', _⟩ | ⟨x3, _, hlt⟩
  · simp only [h0, h1, h2, h3', Outcome.bind]
  · omega

theorem lineValue_panic (cs : List CommitInfo) (line : GoString)
    (hc : Contains line ',' = true) (h3 : Count line ',' < 3) :
    lineValue cs line = .panic := by
  unfold lineValue
  simp only [hc, if_true, headerRecord_panic line h3, Outcome.bind]

theorem lineValue_ok (cs : List CommitInfo) (line : GoString)
    (h : Contains line ',' = true → 3 ≤ Count line ',') :
    ∃ cs', lineValue cs line = .ok cs' := by
  cases hc : Contains line ','
  · exact ⟨_, lineValue_stat cs line hc⟩
  · obtain ⟨r, hr, -, -⟩ := headerRecord_ok line (h hc)
    refine ⟨cs ++ [r], ?_⟩
    unfold lineValue
    simp only [hc, if_true, hr, Outcome.bind]

theorem linesValue_panic (lines : List GoString) (cs : List CommitInfo)
    (h : ∃ l ∈ lines, Contains l ',' = true ∧ Count l ',' < 3) :
    linesValue cs lines = .panic := by
  induction lines generalizing cs with
  | nil =>
    obtain ⟨l, hl, _⟩ := h
    simp at hl
  | cons l rest ih =>
    by_cases hbad : Contains l ',' = true ∧ Count l ',' < 3
    · simp only [linesValue, lineValue_panic cs l hbad.1 hbad.2, Outcome.bind]
    · obtain ⟨cs1, h1⟩ := lineValue_ok cs l (fun hc => by
        by_contra hlt
        exact hbad ⟨hc, by omega⟩)
      simp only [linesValue, h1, Outcome.bind]
      apply ih
      obtain ⟨x, hx, hxb⟩ := h
      rcases List.mem_cons.mp hx with e | e
      · rw [e] at hxb
        exact absurd hxb hbad
      · exact ⟨x, e, hxb⟩

theorem linesValue_ok (lines : List GoString) (cs : List CommitInfo)
    (h : ∀ l ∈ lines, Contains l ',' = true → 3 ≤ Count l ',') :
    ∃ cs', linesValue cs lines = .ok cs' := by
  induction lines generalizing cs with
  | nil => exact ⟨cs, rfl⟩
  | cons l rest ih =>
    obtain ⟨cs1, h1⟩ := lineValue_ok cs l (h l (List.mem_cons_self _ _))
    obtain ⟨cs2, h2⟩ := ih cs1 (fun x hx => h x (List.mem_cons_of_mem _ hx))
    exact ⟨cs2, by simp only [linesValue, h1, Outcome.bind, h2]⟩

/-- C17: the parsing loop panics exactly when some line of the text contains a comma
but fewer than three commas, and returns a slice when every line that contains a
comma has at least three. -/
theorem parseCommitLog_panic_iff (output : GoString) :
    (parseCommitLog output = .panic ↔
      ∃ l ∈ Split output '\n', Contains l ',' = true ∧ Count l ',' < 3) ∧
    ((∀ l ∈ Split output '\n', Contains l ',' = true → 3 ≤ Count l ',') →
      ∃ commits, parseCommitLog output = .ok commits) := by
  rw [parseCommitLog_eq]
  refine ⟨⟨?_, linesValue_panic _ []⟩, linesValue_ok _ []⟩
  intro hp
  by_contra hno
  have hall : ∀ l ∈ Split output '\n', Contains l ',' = true → 3 ≤ Count l ',' := by
    intro l hl hc
    by_contra hlt
    exact hno ⟨l, hl, hc, by omega⟩
  obtain ⟨cs', hok⟩ := linesValue_ok _ [] hall
  rw [hok] at hp
  cases hp

/-- Instance: a log whose lines with a comma all have at least three. -/
theorem parseCommitLog_panic_iff_witness :
    (∀ l ∈ Split "a1,ann,Mon,x, y\n1\t2\tf.go\n".toList '\n',
      Contains l ',' = true → 3 ≤ Count l ',') ∧
    ∃ commits, parseCommitLog "a1,ann,Mon,x, y\n1\t2\tf.go\n".toList = .ok commits :=
  ⟨by decide,
    (parseCommitLog_panic_iff "a1,ann,Mon,x, y\n1\t2\tf.go\n".toList).2 (by decide)⟩


/-! ### Records and blocks -/

theorem withoutFiles_of_files_nil (r : CommitInfo) (h : r.Files = []) : withoutFiles r = r := by
  cases r
  simp only [withoutFiles] at *
  rw [h]

theorem withoutFiles_addFile (file : GoString) (c : CommitInfo) :
    withoutFiles (addFile file c) = withoutFiles c :=
  rfl

theorem takeWhile_header (l : GoString) (rest : List GoString) (hc : Contains l ',' = true) :
    (l :: rest).takeWhile (fun x => !Contains x ',') = [] := by
  simp [List.takeWhile_cons, hc]

theorem takeWhile_stat (l : GoString) (rest : List GoString) (hc : Contains l ',' = false) :
    (l :: rest).takeWhile (fun x => !Contains x ',') =
      l :: rest.takeWhile (fun x => !Contains x ',') := by
  simp [List.takeWhile_cons, hc]

theorem headerBlocks_header (l : GoString) (rest : List GoString) (hc : Contains l ',' = true) :
    headerBlocks (l :: rest) =
      (l, rest.takeWhile (fun x => !Contains x ',')) :: headerBlocks rest := by
  simp [headerBlocks, hc]

theorem headerBlocks_stat (l : GoString) (rest : List GoString) (hc : Contains l ',' = false) :
    headerBlocks (l :: rest) = headerBlocks rest := by
  simp [headerBlocks, hc]

/-- The loop started with a last record `c`: `c` receives the paths of the lines up
to the next header line, and every later header line yields its own record. -/
theorem linesValue_blocks_from (lines : List GoString) (cs : List CommitInfo)
    (c : CommitInfo) (cs' : List CommitInfo)
    (h : linesValue (cs ++ [c]) lines = .ok cs') :
    ∃ c' rs, cs' = cs ++ c' :: rs ∧ withoutFiles c' = withoutFiles c ∧
      ((mapKeys c.Files).Nodup → (mapKeys c'.Files).Nodup) ∧
      (∀ p, p ∈ mapKeys c'.Files ↔
        (p ∈ mapKeys c.Files ∨
          ∃ l ∈ lines.takeWhile (fun x => !Contains x ','), statFile l = some p)) ∧
      List.Forall₂ BuiltFrom (headerBlocks lines) rs := by
  induction lines generalizing cs c with
  | nil =>
    cases h
    exact ⟨c, [], rfl, rfl, id, by simp, by simp [headerBlocks]⟩
  | cons l rest ih =>
    simp only [linesValue, bind_eq_ok] at h
    obtain ⟨cs1, h1, h2⟩ := h
    cases hc : Contains l ','
    · -- a stat line: it goes to `c`
      rw [lineValue_stat (cs ++ [c]) l hc] at h1
      rw [headerBlocks_stat l rest hc, takeWhile_stat l rest hc]
      cases hs : statFile l with
      | none =>
        rw [hs] at h1
        cases h1
        obtain ⟨c', rs, e1, e2, e3, e4, e5⟩ := ih cs c h2
        refine ⟨c', rs, e1, e2, e3, ?_, e5⟩
        intro p
        rw [e4 p]
        constructor
        · rintro (hp | ⟨x, hx, hxp⟩)
          · exact Or.inl hp
          · exact Or.inr ⟨x, List.mem_cons_of_mem _ hx, hxp⟩
        · rintro (hp | ⟨x, hx, hxp⟩)
          · exact Or.inl hp
          · rcases List.mem_cons.mp hx with e | e
            · rw [e, hs] at hxp
              cases hxp
            · exact Or.inr ⟨x, e, hxp⟩
      | some file =>
        rw [hs] at h1
        simp only [onLast_concat] at h1
        cases h1
        obtain ⟨c', rs, e1, e2, e3, e4, e5⟩ := ih cs (addFile file c) h2
        refine ⟨c', rs, e1, e2, ?_, ?_, e5⟩
        · intro hnd
          exact e3 (mapKeys_nodup_mapSet c.Files file 1 hnd)
        · intro p
          rw [e4 p]
          simp only [addFile, mapKeys_mapSet]
          constructor
          · rintro ((hp | hp) | ⟨x, hx, hxp⟩)
            · exact Or.inr ⟨l, List.mem_cons_self _ _, by rw [hs, hp]⟩
            · exact Or.inl hp
            · exact Or.inr ⟨x, List.mem_cons_of_mem _ hx, hxp⟩
          · rintro (hp | ⟨x, hx, hxp⟩)
            · exact Or.inl (Or.inr hp)
            · rcases List.mem_cons.mp hx with e | e
              · rw [e, hs] at hxp
                cases hxp
                exact Or.inl (Or.inl rfl)
              · exact Or.inr ⟨x, e, hxp⟩
    · -- a header line: `c` is finished, a new record starts
      obtain ⟨r, hr, hcs1⟩ := lineValue_header (cs ++ [c]) cs1 l hc h1
      have hrf := headerRecord_files l r hr
      rw [hcs1] at h2
      obtain ⟨c', rs, e1, e2, e3, e4, e5⟩ := ih (cs ++ [c]) r h2
      rw [headerBlocks_header l rest hc, takeWhile_header l rest hc]
      refine ⟨c, c' :: rs, by rw [e1]; simp, rfl, id, by simp, ?_⟩
      refine List.Forall₂.cons ⟨?_, ?_, ?_⟩ e5
      · show headerRecord l = .ok (withoutFiles c')
        rw [e2, withoutFiles_of_files_nil r hrf]
        exact hr
      · exact e3 (by rw [hrf]; exact List.nodup_nil)
      · intro p
        rw [e4 p, hrf]
        simp [mapKeys_nil]

/-- The parser pairs the header lines, in order, with the records it returns. -/
theorem linesValue_blocks (lines : List GoString) (cs' : List CommitInfo)
    (h : linesValue [] lines = .ok cs') :
    List.Forall₂ BuiltFrom (headerBlocks lines) cs' := by
  induction lines with
  | nil =>
    cases h
    simp [headerBlocks]
  | cons l rest ih =>
    simp only [linesValue, bind_eq_ok] at h
    obtain ⟨cs1, h1, h2⟩ := h
    cases hc : Contains l ','
    · rw [lineValue_stat [] l hc] at h1
      rw [headerBlocks_stat l rest hc]
      have hcs1 : cs1 = [] := by
        cases hs : statFile l <;> rw [hs] at h1 <;> cases h1 <;> rfl
      rw [hcs1] at h2
      exact ih h2
    · obtain ⟨r, hr, hcs1⟩ := lineValue_header [] cs1 l hc h1
      have hrf := headerRecord_files l r hr
      rw [hcs1] at h2
      obtain ⟨c', rs, e1, e2, e3, e4, e5⟩ := linesValue_blocks_from rest [] r cs' h2
      rw [headerBlocks_header l rest hc, e1]
      refine List.Forall₂.cons ⟨?_, ?_, ?_⟩ e5
      · show headerRecord l = .ok (withoutFiles c')
        rw [e2, withoutFiles_of_files_nil r hrf]
        exact hr
      · exact e3 (by rw [hrf]; exact List.nodup_nil)
      · intro p
        rw [e4 p, hrf]
        simp [mapKeys_nil]

theorem headerBlocks_fst (lines : List GoString) :
    (headerBlocks lines).map Prod.fst = lines.filter (fun l => Contains l ',') := by
  induction lines with
  | nil => rfl
  | cons l rest ih =>
    cases hc : Contains l ','
    · rw [headerBlocks_stat l rest hc, ih]
      simp [List.filter_cons, hc]
    · rw [headerBlocks_header l rest hc]
      simp [List.filter_cons, hc, ih]

theorem headerRecord_hash (line : GoString) (r : CommitInfo) (h : headerRecord line = .ok r) :
    r.Hash = firstField line := by
  by_cases h3 : 3 ≤ Count line ','
  · obtain ⟨r', hr', hh, -⟩ := headerRecord_ok line h3
    rw [hr'] at h
    cases h
    exact hh
  · rw [headerRecord_panic line (by omega)] at h
    cases h


theorem map_eq_of_forall₂ {α β γ : Type} (R : α → β → Prop) (f : α → γ) (g : β → γ)
    (hR : ∀ a b, R a b → f a = g b) (l : List α) (u : List β) (h : List.Forall₂ R l u) :
    u.map g = l.map f := by
  induction h with
  | nil => rfl
  | cons hab _ ih => simp [hR _ _ hab, ih]

theorem countP_eq_of_forall₂ {α β : Type} (R : α → β → Prop) (p : α → Bool) (q : β → Bool)
    (hR : ∀ a b, R a b → p a = q b) (l : List α) (u : List β) (h : List.Forall₂ R l u) :
    u.countP q = l.countP p := by
  induction h with
  | nil => rfl
  | cons hab _ ih => simp [List.countP_cons, hR _ _ hab, ih]

theorem headers_forall₂ (lines : List GoString) (commits : List CommitInfo)
    (h : List.Forall₂ BuiltFrom (headerBlocks lines) commits) :
    List.Forall₂ (fun hdr c => headerRecord hdr = .ok (withoutFiles c))
      (lines.filter (fun l => Contains l ',')) commits := by
  rw [← headerBlocks_fst, List.forall₂_map_left_iff]
  exact h.imp (fun hb c hbc => hbc.1)

/-- C12: when the parser returns, the returned slice has one record per header line
and pairs with the header lines in order: the k-th record has the four fields of the
k-th header line. -/
theorem parseCommitLog_order (output : GoString) (commits : List CommitInfo)
    (hret : parseCommitLog output = .ok commits) :
    commits.length = ((Split output '\n').filter (fun l => Contains l ',')).length ∧
    List.Forall₂ (fun hdr c => headerRecord hdr = .ok (withoutFiles c))
      ((Split output '\n').filter (fun l => Contains l ',')) commits := by
  rw [parseCommitLog_eq] at hret
  have h := headers_forall₂ _ _ (linesValue_blocks _ _ hret)
  exact ⟨h.length_eq.symm, h⟩

/-- Instance: two header lines around stat lines and a blank line. -/
theorem parseCommitLog_order_witness :
    parseCommitLog "b2,bob,Tue,two\n1\t2\tx.go\n\na1,ann,Mon,one".toList =
      .ok [⟨"b2".toList, "bob".toList, "Tue".toList, "two".toList, [("x.go".toList, 1)]⟩,
           ⟨"a1".toList, "ann".toList, "Mon".toList, "one".toList, []⟩] ∧
    List.Forall₂ (fun hdr c => headerRecord hdr = .ok (withoutFiles c))
      ((Split "b2,bob,Tue,two\n1\t2\tx.go\n\na1,ann,Mon,one".toList '\n').filter
        (fun l => Contains l ','))
      [⟨"b2".toList, "bob".toList, "Tue".toList, "two".toList, [("x.go".toList, 1)]⟩,
       ⟨"a1".toList, "ann".toList, "Mon".toList, "one".toList, []⟩] :=
  ⟨by decide, (parseCommitLog_order _ _ (by decide)).2⟩

/-- C13 fails as stated: two header lines that start with a comma give two records
with the same, empty Hash. -/
theorem parseCommitLog_hash_counterexample :
    ∃ commits, parseCommitLog ",ann,Mon,one\n,ann,Mon,one".toList = .ok commits ∧
      commits.length = 2 ∧ (∃ c ∈ commits, c.Hash = []) ∧
      ¬ (commits.map (fun c => c.Hash)).Nodup :=
  ⟨[⟨[], "ann".toList, "Mon".toList, "one".toList, []⟩,
    ⟨[], "ann".toList, "Mon".toList, "one".toList, []⟩],
    by decide, by decide, by decide, by decide⟩

/-- C13 (amended): when the parser returns, the Hash of the k-th record is the text
before the first comma of the k-th header line; so the hashes are non-empty when no
header line starts with a comma, and pairwise distinct when the header lines have
pairwise distinct first fields. -/
theorem parseCommitLog_hashes (output : GoString) (commits : List CommitInfo)
    (hret : parseCommitLog output = .ok commits) :
    commits.map (fun c => c.Hash) =
      ((Split output '\n').filter (fun l => Contains l ',')).map firstField ∧
    ((∀ hdr ∈ (Split output '\n').filter (fun l => Contains l ','), firstField hdr ≠ []) →
      ∀ c ∈ commits, c.Hash ≠ []) ∧
    ((((Split output '\n').filter (fun l => Contains l ',')).map firstField).Nodup →
      (commits.map (fun c => c.Hash)).Nodup) := by
  rw [parseCommitLog_eq] at hret
  have h := headers_forall₂ _ _ (linesValue_blocks _ _ hret)
  have hmap : commits.map (fun c => c.Hash) =
      ((Split output '\n').filter (fun l => Contains l ',')).map firstField :=
    map_eq_of_forall₂ _ firstField (fun c => c.Hash)
      (fun hdr c hr => (headerRecord_hash hdr _ hr).symm) _ _ h
  refine ⟨hmap, ?_, ?_⟩
  · intro hne c hc
    have hm : c.Hash ∈ commits.map (fun c => c.Hash) := List.mem_map.mpr ⟨c, hc, rfl⟩
    rw [hmap] at hm
    obtain ⟨hdr, hhdr, e⟩ := List.mem_map.mp hm
    rw [← e]
    exact hne hdr hhdr
  · intro hnd
    rw [hmap]
    exact hnd

/-- Instance: two commits with distinct, non-empty hashes. -/
theorem parseCommitLog_hashes_witness :
    parseCommitLog "b2,bob,Tue,two\n1\t2\tx.go\na1,ann,Mon,one".toList =
      .ok [⟨"b2".toList, "bob".toList, "Tue".toList, "two".toList, [("x.go".toList, 1)]⟩,
           ⟨"a1".toList, "ann".toList, "Mon".toList, "one".toList, []⟩] ∧
    ([⟨"b2".toList, "bob".toList, "Tue".toList, "two".toList, [("x.go".toList, 1)]⟩,
      ⟨"a1".toList, "ann".toList, "Mon".toList, "one".toList, []⟩] :
        List CommitInfo).map (fun c => c.Hash) =
      ((Split "b2,bob,Tue,two\n1\t2\tx.go\na1,ann,Mon,one".toList '\n').filter
        (fun l => Contains l ',')).map firstField :=
  ⟨by decide, (parseCommitLog_hashes _ _ (by decide)).1⟩


theorem count_terminated_append (ps : List GoString) (rest : GoString)
    (h : ∀ p ∈ ps, '\n' ∉ p) :
    Count (terminated ps ++ rest) '\n' = ps.length + Count rest '\n' := by
  induction ps with
  | nil => simp [terminated]
  | cons p ps ih =>
    have h1 : '\n' ∉ p := h p (List.mem_cons_self _ _)
    have h2 := ih (fun q hq => h q (List.mem_cons_of_mem _ hq))
    have e : terminated (p :: ps) ++ rest = p ++ '\n' :: (terminated ps ++ rest) := by
      simp [terminated]
    rw [e, count_cut '\n' p _ h1, h2, List.length_cons]
    omega

theorem genSplit_terminated_append (ps : List GoString) (rest : GoString)
    (h : ∀ p ∈ ps, '\n' ∉ p) (k : Nat) :
    genSplit '\n' (ps.length + k) (terminated ps ++ rest) = ps ++ genSplit '\n' k rest := by
  induction ps with
  | nil => simp [terminated]
  | cons p ps ih =>
    have h1 : '\n' ∉ p := h p (List.mem_cons_self _ _)
    have e : terminated (p :: ps) ++ rest = p ++ '\n' :: (terminated ps ++ rest) := by
      simp [terminated]
    have ek : (p :: ps).length + k = (ps.length + k) + 1 := by
      simp only [List.length_cons]; omega
    rw [e, ek, genSplit_append '\n' _ p _ h1,
      ih (fun q hq => h q (List.mem_cons_of_mem _ hq))]
    rfl

theorem split_terminated_append (ps : List GoString) (rest : GoString)
    (h : ∀ p ∈ ps, '\n' ∉ p) :
    Split (terminated ps ++ rest) '\n' = ps ++ Split rest '\n' := by
  unfold Split
  rw [count_terminated_append ps rest h]
  exact genSplit_terminated_append ps rest h _

theorem linesValue_skip (pre rest : List GoString) (hpre : ∀ l ∈ pre, Contains l ',' = false) :
    linesValue [] (pre ++ rest) = linesValue [] rest := by
  induction pre with
  | nil => rfl
  | cons l pre ih =>
    have hl := hpre l (List.mem_cons_self _ _)
    have h1 : lineValue [] l = .ok [] := by
      rw [lineValue_stat [] l hl]
      cases statFile l <;> rfl
    simp only [List.cons_append, linesValue, h1, Outcome.bind]
    exact ih (fun x hx => hpre x (List.mem_cons_of_mem _ hx))

theorem parseCommitLog_skip (pre : List GoString) (rest : GoString)
    (hpre : ∀ l ∈ pre, ',' ∉ l ∧ '\n' ∉ l) :
    parseCommitLog (terminated pre ++ rest) = parseCommitLog rest := by
  rw [parseCommitLog_eq, parseCommitLog_eq,
    split_terminated_append pre rest (fun l hl => (hpre l hl).2)]
  apply linesValue_skip
  intro l hl
  have := (hpre l hl).1
  cases hc : Contains l ','
  · rfl
  · exact absurd ((contains_iff_mem l ',').mp hc) this

/-- C14: lines without a comma that precede the first header line, three-token stat
lines among them, are dropped: the parser gives the same result, failure or slice,
as on the text without them, and as on the text with any other such lines in their
place; with nothing but such lines it returns the empty slice. -/
theorem parseCommitLog_leading_stat (pre pre' : List GoString) (rest : GoString)
    (hpre : ∀ l ∈ pre, ',' ∉ l ∧ '\n' ∉ l) (hpre' : ∀ l ∈ pre', ',' ∉ l ∧ '\n' ∉ l) :
    parseCommitLog (terminated pre ++ rest) = parseCommitLog rest ∧
    parseCommitLog (terminated pre ++ rest) = parseCommitLog (terminated pre' ++ rest) ∧
    parseCommitLog (terminated pre) = .ok [] := by
  refine ⟨parseCommitLog_skip pre rest hpre, ?_, ?_⟩
  · rw [parseCommitLog_skip pre rest hpre, parseCommitLog_skip pre' rest hpre']
  · have h := parseCommitLog_skip pre [] hpre
    rw [List.append_nil] at h
    rw [h]
    decide

/-- Instance: two stat lines before the first header line. -/
theorem parseCommitLog_leading_stat_witness :
    (∀ l ∈ ["1\t2\tx.go".toList, "3\t4\ty.go".toList], ',' ∉ l ∧ '\n' ∉ l) ∧
    parseCommitLog "1\t2\tx.go\n3\t4\ty.go\na1,ann,Mon,one\n5\t6\tz.go".toList =
      .ok [⟨"a1".toList, "ann".toList, "Mon".toList, "one".toList, [("z.go".toList, 1)]⟩] :=
  ⟨by decide,
    (parseCommitLog_leading_stat ["1\t2\tx.go".toList, "3\t4\ty.go".toList] []
      "a1,ann,Mon,one\n5\t6\tz.go".toList (by decide) (by decide)).1.trans (by decide)⟩

theorem wellFormed_of_forall₂ (bs : List (GoString × List GoString))
    (commits : List CommitInfo) (h : List.Forall₂ BuiltFrom bs commits) :
    WellFormed commits := by
  induction h with
  | nil =>
    intro c hc
    simp at hc
  | cons hab _ ih =>
    intro c hc
    rcases List.mem_cons.mp hc with e | e
    · rw [e]
      exact hab.2.1
    · exact ih c e

theorem blockNames_iff (path : GoString) (hb : GoString × List GoString) (c : CommitInfo)
    (h : BuiltFrom hb c) :
    blockNames path hb.2 = decide (path ∈ mapKeys c.Files) := by
  have hiff := h.2.2 path
  by_cases hp : path ∈ mapKeys c.Files
  · obtain ⟨l, hl, hs⟩ := hiff.mp hp
    simp only [hp, decide_True]
    unfold blockNames
    rw [List.any_eq_true]
    exact ⟨l, hl, by simp [hs]⟩
  · simp only [hp, decide_False]
    unfold blockNames
    rw [Bool.eq_false_iff]
    intro hany
    rw [List.any_eq_true] at hany
    obtain ⟨l, hl, hs⟩ := hany
    exact hp (hiff.mpr ⟨l, hl, by simpa using hs⟩)

/-- C15: parser and counting loop together: when the parser returns, the
file-frequency entry of a path is the number of header lines whose block has at
least one three-token line naming the path (no entry when there is none), however
many such lines a block has; one commit with two stat lines for x.go gives x.go the
count 1. -/
theorem parseCommitLog_fileCount (output : GoString) (commits : List CommitInfo)
    (hret : parseCommitLog output = .ok commits) (path : GoString) :
    mapLookup (countChanges commits).fileChangeCounts path =
      (if (headerBlocks (Split output '\n')).countP (fun hb => blockNames path hb.2) = 0
       then none
       else some ((headerBlocks (Split output '\n')).countP
         (fun hb => blockNames path hb.2))) ∧
    (parseCommitLog "a1,ann,Mon,one\n1\t1\tx.go\n2\t2\tx.go".toList).bind
        (fun cs => .ok (countChanges cs).fileChangeCounts) =
      .ok [("x.go".toList, 1)] := by
  refine ⟨?_, by decide⟩
  rw [parseCommitLog_eq] at hret
  have hb := linesValue_blocks _ _ hret
  have hcount : commitsTouching path commits =
      (headerBlocks (Split output '\n')).countP (fun hb => blockNames path hb.2) :=
    countP_eq_of_forall₂ BuiltFrom (fun hb => blockNames path hb.2)
      (fun c => decide (path ∈ mapKeys c.Files))
      (fun a b hab => blockNames_iff path a b hab) _ _ hb
  rw [lookup_fileChangeCounts commits (wellFormed_of_forall₂ _ _ hb) path, hcount]

/-- Instance: x.go has three stat lines in two commits, y.go one. -/
theorem parseCommitLog_fileCount_witness :
    parseCommitLog
        "a1,ann,Mon,one\n1\t1\tx.go\n2\t2\tx.go\nb2,bob,Tue,two\n3\t3\tx.go\n0\t1\ty.go".toList =
      .ok [⟨"a1".toList, "ann".toList, "Mon".toList, "one".toList, [("x.go".toList, 1)]⟩,
           ⟨"b2".toList, "bob".toList, "Tue".toList, "two".toList,
            [("x.go".toList, 1), ("y.go".toList, 1)]⟩] ∧
    mapLookup (countChanges
        [⟨"a1".toList, "ann".toList, "Mon".toList, "one".toList, [("x.go".toList, 1)]⟩,
         ⟨"b2".toList, "bob".toList, "Tue".toList, "two".toList,
          [("x.go".toList, 1), ("y.go".toList, 1)]⟩]).fileChangeCounts "x.go".toList =
      some 2 :=
  ⟨by decide,
    (parseCommitLog_fileCount
      "a1,ann,Mon,one\n1\t1\tx.go\n2\t2\tx.go\nb2,bob,Tue,two\n3\t3\tx.go\n0\t1\ty.go".toList
      _ (by decide) "x.go".toList).1.trans (by decide)⟩

end VCAnalyzer
